import Mathlib

/-!
# Trading-ledger position engine: a shallow embedding

This file embeds the position-accounting core of the `ledger` Go service
(`internal/store/positions.go`, the trades store file,
`internal/api/import.go`, `internal/ingest/event.go`) in Lean 4 and proves
the spec claims about it.

Modelling conventions:
* Go `float64` money/quantity arithmetic is modelled over `ℚ` (exact).
  Claims stated "up to floating-point epsilon" become exact equalities.
* Go `time.Time` values are modelled as `Int` instants, totally ordered as
  the `TIMESTAMPTZ` column is.  The position-row id that Go renders as the
  string `fmt.Sprintf("%s-%s-%s-%d", account, symbol, market, ts.Unix())`
  is modelled as the structured tuple `PosID` of the same four components
  (the truncation to whole Unix seconds and the ambiguity of `-` as a
  separator inside the rendered string are not modelled; the database
  primary key would reject the colliding inserts those could produce).
* The SQL tables are lists of rows; `QueryRow ... WHERE ... status='open'`
  is `List.find?` (the partial unique index guarantees at most one match),
  `UPDATE ... WHERE id = $n` maps the update over rows with that id, and
  `INSERT` appends.
-/

set_option maxHeartbeats 1000000

namespace Ledger

/-- `domain.Side` (internal/domain/types.go). -/
inductive Side
  | buy
  | sell
deriving DecidableEq, Repr

/-- `domain.MarketType` (internal/domain/types.go). -/
inductive MarketType
  | spot
  | futures
deriving DecidableEq, Repr

/-- `domain.PositionSide` (internal/domain/types.go). -/
inductive PositionSide
  | long
  | short
deriving DecidableEq, Repr

/-- `domain.PositionStatus` (internal/domain/types.go): `open_` is the SQL
status string `'open'`, `closed` is `'closed'`. -/
inductive PositionStatus
  | open_
  | closed
deriving DecidableEq, Repr

/-- `domain.Trade` (internal/domain/types.go).  Money and quantities are `ℚ`
(Go: float64), timestamps are `Int` instants. -/
structure Trade where
  tradeID : String
  accountID : String
  symbol : String
  side : Side
  quantity : ℚ
  price : ℚ
  fee : ℚ
  feeCurrency : String
  marketType : MarketType
  timestamp : Int
  ingestedAt : Int
  costBasis : ℚ
  realizedPnL : ℚ
  leverage : Option Int
  margin : Option ℚ
  liquidationPrice : Option ℚ
  fundingFee : Option ℚ
deriving DecidableEq, Repr

/-- The position-row primary key that Go builds with
`fmt.Sprintf("%s-%s-%s-%d", ...)`, kept structured (see module comment). -/
structure PosID where
  accountID : String
  symbol : String
  marketType : MarketType
  timestamp : Int
deriving DecidableEq, Repr

/-- `domain.Position` (internal/domain/types.go): one row of the
`ledger_positions` table. -/
structure Position where
  id : PosID
  accountID : String
  symbol : String
  marketType : MarketType
  side : PositionSide
  quantity : ℚ
  avgEntryPrice : ℚ
  costBasis : ℚ
  realizedPnL : ℚ
  leverage : Option Int
  margin : Option ℚ
  liquidationPrice : Option ℚ
  status : PositionStatus
  openedAt : Int
  closedAt : Option Int
deriving DecidableEq, Repr

/-- The row id `fmt.Sprintf("%s-%s-spot-%d", ...)` respectively
`"%s-%s-futures-%d"` generated on position open (positions.go:40,123). -/
def posID (t : Trade) : PosID :=
  ⟨t.accountID, t.symbol, t.marketType, t.timestamp⟩

/-- The `WHERE` clause of the open-position lookup in `upsertSpotPosition`
(positions.go:29): `account_id = $1 AND symbol = $2 AND
market_type = 'spot' AND status = 'open'`. -/
def spotOpenMatch (t : Trade) (p : Position) : Bool :=
  p.accountID == t.accountID && p.symbol == t.symbol &&
    p.marketType == MarketType.spot && p.status == PositionStatus.open_

/-- The `WHERE` clause of the open-position lookup in
`upsertFuturesPosition` (positions.go:106). -/
def futuresOpenMatch (t : Trade) (p : Position) : Bool :=
  p.accountID == t.accountID && p.symbol == t.symbol &&
    p.marketType == MarketType.futures && p.status == PositionStatus.open_

/-- `UPDATE ledger_positions SET ... WHERE id = $n`: apply `f` to every row
whose id matches (the primary key makes this a single row in SQL). -/
def updateRow (ps : List Position) (i : PosID) (f : Position → Position) :
    List Position :=
  ps.map fun p => if p.id = i then f p else p

/-- The row inserted on first spot buy (positions.go:38-47). -/
def newSpotPosition (t : Trade) : Position :=
  { id := posID t
    accountID := t.accountID
    symbol := t.symbol
    marketType := MarketType.spot
    side := PositionSide.long
    quantity := t.quantity
    avgEntryPrice := t.price
    costBasis := t.quantity * t.price + t.fee
    realizedPnL := 0
    leverage := none
    margin := none
    liquidationPrice := none
    status := PositionStatus.open_
    openedAt := t.timestamp
    closedAt := none }

/-- `upsertSpotPosition` (positions.go:21-96). -/
def upsertSpotPosition (ps : List Position) (t : Trade) : List Position :=
  match ps.find? (spotOpenMatch t) with
  | none =>
    if t.side = Side.buy then ps ++ [newSpotPosition t]
    else ps
  | some pos =>
    if t.side = Side.buy then
      let newCostBasis := t.quantity * t.price + t.fee
      let totalQuantity := pos.quantity + t.quantity
      let totalCost := pos.costBasis + newCostBasis
      let avgEntry := totalCost / totalQuantity
      updateRow ps pos.id fun p =>
        { p with
          quantity := totalQuantity
          avgEntryPrice := avgEntry
          costBasis := totalCost }
    else
      let realizedPnL := (t.price - pos.avgEntryPrice) * t.quantity - t.fee
      let newQuantity := pos.quantity - t.quantity
      if newQuantity ≤ 0 then
        updateRow ps pos.id fun p =>
          { p with
            quantity := 0
            realizedPnL := p.realizedPnL + realizedPnL
            status := PositionStatus.closed
            closedAt := some t.timestamp }
      else
        let remainingCostBasis := pos.avgEntryPrice * newQuantity
        updateRow ps pos.id fun p =>
          { p with
            quantity := newQuantity
            costBasis := remainingCostBasis
            realizedPnL := p.realizedPnL + realizedPnL }

/-- SQL `COALESCE(new, existing)` over nullable columns. -/
def coalesce {α : Type} (new : Option α) (existing : Option α) : Option α :=
  match new with
  | some v => some v
  | none => existing

/-- The row inserted on first futures trade (positions.go:113-132). -/
def newFuturesPosition (t : Trade) : Position :=
  { id := posID t
    accountID := t.accountID
    symbol := t.symbol
    marketType := MarketType.futures
    side := if t.side = Side.buy then PositionSide.long else PositionSide.short
    quantity := t.quantity
    avgEntryPrice := t.price
    costBasis := t.quantity * t.price
    realizedPnL := 0
    leverage := t.leverage
    margin := t.margin
    liquidationPrice := t.liquidationPrice
    status := PositionStatus.open_
    openedAt := t.timestamp
    closedAt := none }

/-- `upsertFuturesPosition` (positions.go:98-196). -/
def upsertFuturesPosition (ps : List Position) (t : Trade) : List Position :=
  match ps.find? (futuresOpenMatch t) with
  | none => ps ++ [newFuturesPosition t]
  | some pos =>
    let isClosing := (pos.side = PositionSide.long ∧ t.side = Side.sell) ∨
      (pos.side = PositionSide.short ∧ t.side = Side.buy)
    if ¬ isClosing then
      let newCost := t.quantity * t.price
      let totalQuantity := pos.quantity + t.quantity
      let totalCost := pos.costBasis + newCost
      let avgEntry := totalCost / totalQuantity
      updateRow ps pos.id fun p =>
        { p with
          quantity := totalQuantity
          avgEntryPrice := avgEntry
          costBasis := totalCost
          leverage := coalesce t.leverage p.leverage
          margin := coalesce t.margin p.margin
          liquidationPrice := coalesce t.liquidationPrice p.liquidationPrice }
    else
      let base := if pos.side = PositionSide.long then
          (t.price - pos.avgEntryPrice) * t.quantity
        else
          (pos.avgEntryPrice - t.price) * t.quantity
      let afterFee := base - t.fee
      let realizedPnL := match t.fundingFee with
        | some g => afterFee - g
        | none => afterFee
      let newQuantity := pos.quantity - t.quantity
      if newQuantity ≤ 0 then
        updateRow ps pos.id fun p =>
          { p with
            quantity := 0
            realizedPnL := p.realizedPnL + realizedPnL
            status := PositionStatus.closed
            closedAt := some t.timestamp }
      else
        let remainingCost := pos.avgEntryPrice * newQuantity
        updateRow ps pos.id fun p =>
          { p with
            quantity := newQuantity
            costBasis := remainingCost
            realizedPnL := p.realizedPnL + realizedPnL }

/-- `UpsertPosition` (positions.go:14-19): dispatch on market type. -/
def UpsertPosition (ps : List Position) (t : Trade) : List Position :=
  if t.marketType = MarketType.spot then upsertSpotPosition ps t
  else upsertFuturesPosition ps t

/-- The persistent state the claims range over: the `ledger_trades` and
`ledger_positions` tables. -/
structure LedgerState where
  trades : List Trade
  positions : List Position
deriving DecidableEq, Repr

/-- `InsertTrade` (trades store file, lines 15-35): `INSERT ... ON CONFLICT
(trade_id) DO NOTHING`, returning whether a row was written. -/
def InsertTrade (s : LedgerState) (t : Trade) : LedgerState × Bool :=
  if s.trades.any (fun u => u.tradeID == t.tradeID) then (s, false)
  else ({ s with trades := s.trades ++ [t] }, true)

/-- `InsertTradeAndUpdatePosition` (positions.go:198-222): one transaction,
position updated only when the trade row was actually inserted. -/
def InsertTradeAndUpdatePosition (s : LedgerState) (t : Trade) :
    LedgerState × Bool :=
  match InsertTrade s t with
  | (s1, true) => ({ s1 with positions := UpsertPosition s1.positions t }, true)
  | (s1, false) => (s1, false)

/-- `ORDER BY timestamp ASC, trade_id ASC` (positions.go:348) as a Boolean
total preorder on trades. -/
def tradeLE (a b : Trade) : Bool :=
  decide (a.timestamp < b.timestamp ∨
    (a.timestamp = b.timestamp ∧ a.tradeID ≤ b.tradeID))

/-- `TradesForRebuild` (positions.go:340-373): all trades of the account in
`(timestamp ASC, trade_id ASC)` order. -/
def TradesForRebuild (s : LedgerState) (accountID : String) : List Trade :=
  (s.trades.filter (fun t => t.accountID == accountID)).mergeSort tradeLE

/-- The replay loop of `RebuildPositions` (positions.go:331-335). -/
def replayPositions (ps : List Position) (ts : List Trade) : List Position :=
  ts.foldl UpsertPosition ps

/-- `RebuildPositions` (positions.go:311-338): delete every position row of
the account, then replay its trades chronologically. -/
def RebuildPositions (s : LedgerState) (accountID : String) : LedgerState :=
  let remaining := s.positions.filter fun p => !(p.accountID == accountID)
  { s with positions := replayPositions remaining (TradesForRebuild s accountID) }

/-! ## Helper lemmas about row lookup, row update and ingestion -/

theorem find?_middle {α : Type} (p : α → Bool) (l₁ l₂ : List α) (a : α)
    (h₁ : ∀ r ∈ l₁, p r = false) (ha : p a = true) :
    (l₁ ++ a :: l₂).find? p = some a := by
  induction l₁ with
  | nil => simp [List.find?_cons_of_pos, ha]
  | cons b tl ih =>
    have hb : ¬ p b = true := by simp [h₁ b (by simp)]
    rw [List.cons_append, List.find?_cons_of_neg _ hb]
    exact ih fun r hr => h₁ r (by simp [hr])

theorem map_id_of_ne {α : Type} (l : List α) (g : α → α) (q : α → Bool)
    (hg : ∀ r, q r = false → g r = r) (h : ∀ r ∈ l, q r = false) :
    l.map g = l := by
  induction l with
  | nil => rfl
  | cons b tl ih =>
    have hb := hg b (h b (by simp))
    simp only [List.map_cons, hb, List.cons.injEq, true_and]
    exact ih fun r hr => h r (by simp [hr])

theorem updateRow_middle (l₁ l₂ : List Position) (pos : Position)
    (f : Position → Position)
    (h₁ : ∀ r ∈ l₁, r.id ≠ pos.id) (h₂ : ∀ r ∈ l₂, r.id ≠ pos.id) :
    updateRow (l₁ ++ pos :: l₂) pos.id f = l₁ ++ f pos :: l₂ := by
  unfold updateRow
  rw [List.map_append, List.map_cons, if_pos rfl]
  rw [map_id_of_ne l₁ _ (fun r => decide (r.id = pos.id))
        (fun r hr => by simp at hr; simp [hr])
        (fun r hr => by simp [h₁ r hr]),
      map_id_of_ne l₂ _ (fun r => decide (r.id = pos.id))
        (fun r hr => by simp at hr; simp [hr])
        (fun r hr => by simp [h₂ r hr])]

/-- A fresh trade id: the insert happens and the position engine runs. -/
theorem ingest_of_fresh (s : LedgerState) (t : Trade)
    (hfresh : ∀ u ∈ s.trades, u.tradeID ≠ t.tradeID) :
    InsertTradeAndUpdatePosition s t =
      (⟨s.trades ++ [t], UpsertPosition s.positions t⟩, true) := by
  have hany : s.trades.any (fun u => u.tradeID == t.tradeID) = false := by
    rw [List.any_eq_false]
    intro u hu
    simpa using hfresh u hu
  simp [InsertTradeAndUpdatePosition, InsertTrade, hany]

/-- A duplicate trade id: the whole operation is a no-op. -/
theorem ingest_of_dup (s : LedgerState) (t : Trade)
    (hdup : ∃ u ∈ s.trades, u.tradeID = t.tradeID) :
    InsertTradeAndUpdatePosition s t = (s, false) := by
  have hany : s.trades.any (fun u => u.tradeID == t.tradeID) = true := by
    rw [List.any_eq_true]
    obtain ⟨u, hu, he⟩ := hdup
    exact ⟨u, hu, by simp [he]⟩
  simp [InsertTradeAndUpdatePosition, InsertTrade, hany]

/-! ## Concrete fixtures used by counterexamples and witnesses -/

/-- A trade with every field defaulted; fixtures override what they need. -/
def baseTrade : Trade :=
  { tradeID := "t"
    accountID := "live"
    symbol := "BTC-USD"
    side := Side.buy
    quantity := 1
    price := 1
    fee := 0
    feeCurrency := "USD"
    marketType := MarketType.spot
    timestamp := 0
    ingestedAt := 0
    costBasis := 0
    realizedPnL := 0
    leverage := none
    margin := none
    liquidationPrice := none
    fundingFee := none }

/-- Open short futures position: 10 contracts at average entry 100. -/
def posShort10 : Position :=
  { id := ⟨"live", "BTC-USD", MarketType.futures, 1⟩
    accountID := "live"
    symbol := "BTC-USD"
    marketType := MarketType.futures
    side := PositionSide.short
    quantity := 10
    avgEntryPrice := 100
    costBasis := 1000
    realizedPnL := 0
    leverage := some 5
    margin := none
    liquidationPrice := none
    status := PositionStatus.open_
    openedAt := 1
    closedAt := none }

/-- Futures over-close: buy 15 at 90 against the 10-contract short,
fee 2, funding fee 1. -/
def buy15at90 : Trade :=
  { baseTrade with
    tradeID := "t-oc"
    side := Side.buy
    quantity := 15
    price := 90
    fee := 2
    marketType := MarketType.futures
    timestamp := 2
    fundingFee := some 1 }

/-- Open spot long position: 1 unit at average entry 100. -/
def posLong1 : Position :=
  { id := ⟨"live", "BTC-USD", MarketType.spot, 1⟩
    accountID := "live"
    symbol := "BTC-USD"
    marketType := MarketType.spot
    side := PositionSide.long
    quantity := 1
    avgEntryPrice := 100
    costBasis := 100
    realizedPnL := 0
    leverage := none
    margin := none
    liquidationPrice := none
    status := PositionStatus.open_
    openedAt := 1
    closedAt := none }

/-- Spot over-sell: sell 2 at 110 against the 1-unit long, fee 5. -/
def sell2at110 : Trade :=
  { baseTrade with
    tradeID := "t-os"
    side := Side.sell
    quantity := 2
    price := 110
    fee := 5
    timestamp := 2 }

/-- S5 close trade: buy 4 at 90, fee 2, funding fee 1, futures. -/
def buy4at90 : Trade :=
  { baseTrade with
    tradeID := "t-s5"
    side := Side.buy
    quantity := 4
    price := 90
    fee := 2
    marketType := MarketType.futures
    timestamp := 2
    fundingFee := some 1 }

/-! ## C1: futures closing trade -/

/-- Claim C1 counterexample.  The claim predicts a realized-P&L increment
of `(ap − p)·min(q, qp)` minus fees for a closing buy against a short.  At
the concrete over-close (short 10 @ 100, closing buy 15 @ 90, fee 2,
funding fee 1) the claim predicts `(100 − 90)·min(15,10) − 2 − 1 = 97`,
but `upsertFuturesPosition` computes `(100 − 90)·15 − 2 − 1 = 147`: the
code multiplies by the full trade quantity, never by `min(q, qp)`. -/
theorem futures_overclose_counterexample :
    upsertFuturesPosition [posShort10] buy15at90 ≠
      [{ posShort10 with
         quantity := 0
         realizedPnL := posShort10.realizedPnL +
           ((posShort10.avgEntryPrice - buy15at90.price) *
               min buy15at90.quantity posShort10.quantity -
             buy15at90.fee - (buy15at90.fundingFee.getD 0))
         status := PositionStatus.closed
         closedAt := some buy15at90.timestamp }] ∧
    upsertFuturesPosition [posShort10] buy15at90 =
      [{ posShort10 with
         quantity := 0
         realizedPnL := 147
         status := PositionStatus.closed
         closedAt := some buy15at90.timestamp }] := by
  have hmin : min buy15at90.quantity posShort10.quantity = 10 := by
    norm_num [buy15at90, posShort10, baseTrade]
  constructor
  · rw [hmin]
    simp [upsertFuturesPosition, futuresOpenMatch, posShort10, buy15at90,
      baseTrade, updateRow, Position.mk.injEq]
    norm_num
  · simp [upsertFuturesPosition, futuresOpenMatch, posShort10, buy15at90,
      baseTrade, updateRow, Position.mk.injEq]
    norm_num

/-- Claim C1, amended.  A closing futures trade (sell against a long, buy
against a short) of quantity `q`, price `p`, fee `f` and optional funding
fee `g` yields a realized-P&L increment of `(p − ap)·q` for a long or
`(ap − p)·q` for a short — computed over the full trade quantity, not
`min(q, qp)` — minus `f` and minus `g` when present.  When `qp − q ≤ 0`
the position is set to quantity 0, status closed,
`closed_at = trade.timestamp`, with the over-close remainder discarded;
otherwise the quantity becomes `qp − q` and the cost basis
`ap · (qp − q)`.  The state is an arbitrary positions table split as
`l₁ ++ pos :: l₂` around the open row the engine's `QueryRow` finds. -/
theorem futures_close_realized (l₁ l₂ : List Position) (pos : Position)
    (t : Trade)
    (hmt : t.marketType = MarketType.futures)
    (h₁ : ∀ r ∈ l₁, futuresOpenMatch t r = false)
    (hpos : futuresOpenMatch t pos = true)
    (hid₁ : ∀ r ∈ l₁, r.id ≠ pos.id) (hid₂ : ∀ r ∈ l₂, r.id ≠ pos.id)
    (hclosing : (pos.side = PositionSide.long ∧ t.side = Side.sell) ∨
      (pos.side = PositionSide.short ∧ t.side = Side.buy)) :
    UpsertPosition (l₁ ++ pos :: l₂) t =
      l₁ ++ (if pos.quantity - t.quantity ≤ 0 then
        { pos with
          quantity := 0
          realizedPnL := pos.realizedPnL +
            ((if pos.side = PositionSide.long then
                (t.price - pos.avgEntryPrice) * t.quantity
              else (pos.avgEntryPrice - t.price) * t.quantity) -
              t.fee - t.fundingFee.getD 0)
          status := PositionStatus.closed
          closedAt := some t.timestamp }
      else
        { pos with
          quantity := pos.quantity - t.quantity
          costBasis := pos.avgEntryPrice * (pos.quantity - t.quantity)
          realizedPnL := pos.realizedPnL +
            ((if pos.side = PositionSide.long then
                (t.price - pos.avgEntryPrice) * t.quantity
              else (pos.avgEntryPrice - t.price) * t.quantity) -
              t.fee - t.fundingFee.getD 0) }) :: l₂ := by
  have hmt' : ¬ t.marketType = MarketType.spot := by
    rw [hmt]
    intro h
    cases h
  unfold UpsertPosition
  rw [if_neg hmt']
  unfold upsertFuturesPosition
  rw [find?_middle _ _ _ _ h₁ hpos]
  simp only
  rw [if_neg (not_not_intro hclosing)]
  have hfund : ∀ x : ℚ, (match t.fundingFee with
      | some g => x - t.fee - g
      | none => x - t.fee) = x - t.fee - t.fundingFee.getD 0 := by
    intro x
    cases t.fundingFee <;> simp
  by_cases hq : pos.quantity - t.quantity ≤ 0
  · rw [if_pos hq, updateRow_middle l₁ l₂ pos _ hid₁ hid₂, if_pos hq, hfund]
  · rw [if_neg hq, updateRow_middle l₁ l₂ pos _ hid₁ hid₂, if_neg hq, hfund]

/-- Witness for `futures_close_realized`: the spec's scenario S5 (short 10
@ 100; close 4 @ 90, fee 2, funding fee 1) leaves 6 contracts at average
entry 100 with realized P&L `(100 − 90)·4 − 2 − 1 = 37`. -/
theorem futures_close_realized_witness :
    UpsertPosition [posShort10] buy4at90 =
      [{ posShort10 with
         quantity := 6
         costBasis := 600
         realizedPnL := 37 }] := by
  have h := futures_close_realized [] [] posShort10 buy4at90
    (by simp [buy4at90, baseTrade]) (by intro r hr; cases hr)
    (by simp [futuresOpenMatch, posShort10, buy4at90, baseTrade])
    (by intro r hr; cases hr) (by intro r hr; cases hr)
    (Or.inr (by constructor <;> simp [posShort10, buy4at90, baseTrade]))
  simp only [List.nil_append] at h
  rw [h]
  have hq : ¬ posShort10.quantity - buy4at90.quantity ≤ 0 := by
    norm_num [posShort10, buy4at90, baseTrade]
  rw [if_neg hq]
  simp [posShort10, buy4at90, baseTrade, Position.mk.injEq]
  norm_num

/-! ## C2: spot over-sell -/

/-- Claim C2 counterexample.  The claim predicts that an over-sell realizes
`(p − ap)·qp − f`, truncating the excess to the open quantity `qp`.  At the
concrete input (long 1 @ 100, sell 2 @ 110, fee 5) the claim predicts
`(110 − 100)·1 − 5 = 5`, but `upsertSpotPosition` computes
`(110 − 100)·2 − 5 = 15`: the code uses the full sell quantity. -/
theorem spot_oversell_counterexample :
    upsertSpotPosition [posLong1] sell2at110 ≠
      [{ posLong1 with
         quantity := 0
         realizedPnL := posLong1.realizedPnL +
           ((sell2at110.price - posLong1.avgEntryPrice) * posLong1.quantity -
             sell2at110.fee)
         status := PositionStatus.closed
         closedAt := some sell2at110.timestamp }] ∧
    upsertSpotPosition [posLong1] sell2at110 =
      [{ posLong1 with
         quantity := 0
         realizedPnL := 15
         status := PositionStatus.closed
         closedAt := some sell2at110.timestamp }] := by
  constructor
  · simp [upsertSpotPosition, spotOpenMatch, posLong1, sell2at110,
      baseTrade, updateRow, Position.mk.injEq]
    norm_num
  · simp [upsertSpotPosition, spotOpenMatch, posLong1, sell2at110,
      baseTrade, updateRow, Position.mk.injEq]
    norm_num

/-- Claim C2, amended.  A sell of quantity `q ≥ qp` against an open spot
position closes it with realized-P&L increment `(p − ap)·q − f` — computed
over the full sell quantity, not truncated to `qp` — sets quantity to 0,
status to closed and `closed_at` to the trade's timestamp.  The excess is
never treated as a short: the row keeps its side and no new row is
created (the output is the input list with only that row replaced). -/
theorem spot_oversell_closes (l₁ l₂ : List Position) (pos : Position)
    (t : Trade)
    (hmt : t.marketType = MarketType.spot)
    (hsell : t.side = Side.sell)
    (h₁ : ∀ r ∈ l₁, spotOpenMatch t r = false)
    (hpos : spotOpenMatch t pos = true)
    (hid₁ : ∀ r ∈ l₁, r.id ≠ pos.id) (hid₂ : ∀ r ∈ l₂, r.id ≠ pos.id)
    (hq : pos.quantity ≤ t.quantity) :
    UpsertPosition (l₁ ++ pos :: l₂) t =
      l₁ ++ { pos with
        quantity := 0
        realizedPnL := pos.realizedPnL +
          ((t.price - pos.avgEntryPrice) * t.quantity - t.fee)
        status := PositionStatus.closed
        closedAt := some t.timestamp } :: l₂ := by
  unfold UpsertPosition
  rw [if_pos hmt]
  unfold upsertSpotPosition
  rw [find?_middle _ _ _ _ h₁ hpos]
  simp only
  have hbuy : ¬ t.side = Side.buy := by
    rw [hsell]
    intro h
    cases h
  rw [if_neg hbuy, if_pos (by linarith), updateRow_middle l₁ l₂ pos _ hid₁ hid₂]

/-- Witness for `spot_oversell_closes` at the concrete over-sell input. -/
theorem spot_oversell_closes_witness :
    UpsertPosition [posLong1] sell2at110 =
      [{ posLong1 with
         quantity := 0
         realizedPnL := 15
         status := PositionStatus.closed
         closedAt := some sell2at110.timestamp }] := by
  have h := spot_oversell_closes [] [] posLong1 sell2at110
    (by simp [sell2at110, baseTrade]) (by simp [sell2at110, baseTrade])
    (by intro r hr; cases hr)
    (by simp [spotOpenMatch, posLong1, sell2at110, baseTrade])
    (by intro r hr; cases hr) (by intro r hr; cases hr)
    (by norm_num [posLong1, sell2at110, baseTrade])
  simp only [List.nil_append] at h
  rw [h]
  simp [posLong1, sell2at110, baseTrade, Position.mk.injEq]
  norm_num

/-! ## C4: idempotent ingestion -/

/-- Claim C4.  Ingesting a trade whose id is not yet in the log inserts it
(`inserted = true`); ingesting the same trade again returns
`inserted = false` (reported as a duplicate, not an error) and leaves the
ledger state — both the trade log and the position rows — exactly as after
the first ingestion. -/
theorem ingest_idempotent (s : LedgerState) (t : Trade)
    (hfresh : ∀ u ∈ s.trades, u.tradeID ≠ t.tradeID) :
    (InsertTradeAndUpdatePosition s t).2 = true ∧
    InsertTradeAndUpdatePosition (InsertTradeAndUpdatePosition s t).1 t =
      ((InsertTradeAndUpdatePosition s t).1, false) := by
  rw [ingest_of_fresh s t hfresh]
  refine ⟨rfl, ?_⟩
  exact ingest_of_dup _ t ⟨t, by simp, rfl⟩

/-- Witness for `ingest_idempotent`: ingesting the base fixture trade into
the empty ledger, twice. -/
theorem ingest_idempotent_witness :
    (InsertTradeAndUpdatePosition ⟨[], []⟩ baseTrade).2 = true ∧
    InsertTradeAndUpdatePosition
        (InsertTradeAndUpdatePosition ⟨[], []⟩ baseTrade).1 baseTrade =
      ((InsertTradeAndUpdatePosition ⟨[], []⟩ baseTrade).1, false) :=
  ingest_idempotent ⟨[], []⟩ baseTrade (by intro u hu; cases hu)

/-- The key of the partial unique index `idx_ledger_positions_open_unique`:
`(account_id, symbol, market_type) WHERE status = 'open'`. -/
def openKey (a sym : String) (mt : MarketType) (p : Position) : Bool :=
  p.accountID == a && p.symbol == sym && p.marketType == mt &&
    p.status == PositionStatus.open_

/-- At most one open position row per `(account_id, symbol, market_type)`. -/
def OpenUnique (ps : List Position) : Prop :=
  ∀ a sym mt, ps.countP (openKey a sym mt) ≤ 1

theorem countP_map_le_of_imp {α : Type} (l : List α) (g : α → α)
    (p : α → Bool) (h : ∀ x ∈ l, p (g x) = true → p x = true) :
    (l.map g).countP p ≤ l.countP p := by
  induction l with
  | nil => simp
  | cons b tl ih =>
    have htl := ih fun x hx => h x (by simp [hx])
    simp only [List.map_cons, List.countP_cons]
    by_cases hb : p (g b) = true
    · rw [if_pos hb, if_pos (h b (by simp) hb)]
      omega
    · rw [if_neg hb]
      split <;> omega

theorem updateRow_countP_le (ps : List Position) (i : PosID)
    (f : Position → Position) (p : Position → Bool)
    (hf : ∀ x, p (f x) = true → p x = true) :
    (updateRow ps i f).countP p ≤ ps.countP p := by
  apply countP_map_le_of_imp
  intro x _ hx
  by_cases hid : x.id = i
  · rw [if_pos hid] at hx
    exact hf x hx
  · rwa [if_neg hid] at hx

theorem upsertSpot_openUnique (ps : List Position) (t : Trade)
    (h : OpenUnique ps) : OpenUnique (upsertSpotPosition ps t) := by
  unfold upsertSpotPosition
  rcases hfind : ps.find? (spotOpenMatch t) with _ | pos
  · by_cases hside : t.side = Side.buy
    · rw [if_pos hside]
      intro a sym mt
      rw [List.countP_append]
      by_cases hnew : openKey a sym mt (newSpotPosition t) = true
      · have hkey : a = t.accountID ∧ sym = t.symbol ∧ mt = MarketType.spot := by
          simp [openKey, newSpotPosition] at hnew
          tauto
        obtain ⟨ha, hsym, hmt⟩ := hkey
        subst ha
        subst hsym
        subst hmt
        have hzero : ps.countP (openKey t.accountID t.symbol MarketType.spot) = 0 := by
          rw [List.countP_eq_zero]
          intro q hq
          have := List.find?_eq_none.mp hfind q hq
          simpa [spotOpenMatch, openKey] using this
        simp [hzero, hnew]
      · simp only [Bool.not_eq_true] at hnew
        simp [hnew]
        exact h a sym mt
    · rw [if_neg hside]
      exact h
  · intro a sym mt
    simp only
    by_cases hside : t.side = Side.buy
    · rw [if_pos hside]
      refine le_trans (updateRow_countP_le _ _ _ _ ?_) (h a sym mt)
      intro x hx
      simpa [openKey] using hx
    · rw [if_neg hside]
      by_cases hq : pos.quantity - t.quantity ≤ 0
      · rw [if_pos hq]
        refine le_trans (updateRow_countP_le _ _ _ _ ?_) (h a sym mt)
        intro x hx
        simp [openKey] at hx
      · rw [if_neg hq]
        refine le_trans (updateRow_countP_le _ _ _ _ ?_) (h a sym mt)
        intro x hx
        simpa [openKey] using hx

theorem upsertFutures_openUnique (ps : List Position) (t : Trade)
    (h : OpenUnique ps) : OpenUnique (upsertFuturesPosition ps t) := by
  unfold upsertFuturesPosition
  rcases hfind : ps.find? (futuresOpenMatch t) with _ | pos
  · intro a sym mt
    rw [List.countP_append]
    by_cases hnew : openKey a sym mt (newFuturesPosition t) = true
    · have hkey : a = t.accountID ∧ sym = t.symbol ∧ mt = MarketType.futures := by
        simp [openKey, newFuturesPosition] at hnew
        tauto
      obtain ⟨ha, hsym, hmt⟩ := hkey
      subst ha
      subst hsym
      subst hmt
      have hzero : ps.countP (openKey t.accountID t.symbol MarketType.futures) = 0 := by
        rw [List.countP_eq_zero]
        intro q hq
        have := List.find?_eq_none.mp hfind q hq
        simpa [futuresOpenMatch, openKey] using this
      simp [hzero, hnew]
    · simp only [Bool.not_eq_true] at hnew
      simp [hnew]
      exact h a sym mt
  · intro a sym mt
    simp only
    by_cases hcl : ¬ ((pos.side = PositionSide.long ∧ t.side = Side.sell) ∨
        (pos.side = PositionSide.short ∧ t.side = Side.buy))
    · rw [if_pos hcl]
      refine le_trans (updateRow_countP_le _ _ _ _ ?_) (h a sym mt)
      intro x hx
      simpa [openKey] using hx
    · rw [if_neg hcl]
      by_cases hq : pos.quantity - t.quantity ≤ 0
      · rw [if_pos hq]
        refine le_trans (updateRow_countP_le _ _ _ _ ?_) (h a sym mt)
        intro x hx
        simp [openKey] at hx
      · rw [if_neg hq]
        refine le_trans (updateRow_countP_le _ _ _ _ ?_) (h a sym mt)
        intro x hx
        simpa [openKey] using hx

theorem upsert_openUnique (ps : List Position) (t : Trade)
    (h : OpenUnique ps) : OpenUnique (UpsertPosition ps t) := by
  unfold UpsertPosition
  split
  · exact upsertSpot_openUnique ps t h
  · exact upsertFutures_openUnique ps t h

theorem replay_openUnique (ps : List Position) (ts : List Trade)
    (h : OpenUnique ps) : OpenUnique (replayPositions ps ts) := by
  induction ts generalizing ps with
  | nil => exact h
  | cons t tl ih => exact ih _ (upsert_openUnique ps t h)

theorem filter_openUnique (ps : List Position) (q : Position → Bool)
    (h : OpenUnique ps) : OpenUnique (ps.filter q) := by
  intro a sym mt
  exact le_trans (List.Sublist.countP_le _ (List.filter_sublist ps)) (h a sym mt)

/-- The states reachable from the empty ledger by the operations of the
service: single-trade ingestion (stream consumer or import loop) and
per-account position rebuilds (import epilogue or repair). -/
inductive Reachable : LedgerState → Prop
  | empty : Reachable ⟨[], []⟩
  | ingest (s : LedgerState) (t : Trade) : Reachable s →
      Reachable (InsertTradeAndUpdatePosition s t).1
  | rebuild (s : LedgerState) (a : String) : Reachable s →
      Reachable (RebuildPositions s a)

/-- Claim C5.  After any sequence of ingestion, import and rebuild
operations starting from the empty ledger, at most one position row per
`(account_id, symbol, market_type)` has status `open`. -/
theorem open_position_unique (s : LedgerState) (h : Reachable s) :
    OpenUnique s.positions := by
  induction h with
  | empty => intro a sym mt; simp
  | ingest s t _ ih =>
    by_cases hdup : ∃ u ∈ s.trades, u.tradeID = t.tradeID
    · rw [ingest_of_dup s t hdup]
      exact ih
    · push_neg at hdup
      rw [ingest_of_fresh s t hdup]
      exact upsert_openUnique _ _ ih
  | rebuild s a _ ih =>
    exact replay_openUnique _ _ (filter_openUnique _ _ ih)

/-- Witness for `open_position_unique`: after ingesting the fixture buy
into the empty ledger, the `(live, BTC-USD, spot)` key has exactly one open
row and the bound holds. -/
theorem open_position_unique_witness :
    (InsertTradeAndUpdatePosition ⟨[], []⟩ baseTrade).1.positions.countP
      (openKey "live" "BTC-USD" MarketType.spot) ≤ 1 :=
  open_position_unique _ (Reachable.ingest ⟨[], []⟩ baseTrade Reachable.empty)
    "live" "BTC-USD" MarketType.spot

/-! ## C3: rebuild equivalence -/

/-- The incremental-processing loop: fold `InsertTradeAndUpdatePosition`
over a batch of trades in arrival order (the stream consumer and the
sorted import loop both reduce to this on the store). -/
def ingestAll (s : LedgerState) (ts : List Trade) : LedgerState :=
  ts.foldl (fun s t => (InsertTradeAndUpdatePosition s t).1) s

theorem ingestAll_fresh (s : LedgerState) (ts : List Trade)
    (hdisj : ∀ u ∈ s.trades, ∀ t ∈ ts, u.tradeID ≠ t.tradeID)
    (hnodup : (ts.map Trade.tradeID).Nodup) :
    ingestAll s ts = ⟨s.trades ++ ts, replayPositions s.positions ts⟩ := by
  induction ts generalizing s with
  | nil => simp [ingestAll, replayPositions]
  | cons t tl ih =>
    unfold ingestAll
    rw [List.foldl_cons, ingest_of_fresh s t (fun u hu => hdisj u hu t (by simp))]
    simp only [List.map_cons, List.nodup_cons] at hnodup
    have h2 := ih ⟨s.trades ++ [t], UpsertPosition s.positions t⟩ ?_ hnodup.2
    · unfold ingestAll at h2
      rw [h2]
      simp [replayPositions]
    · intro u hu x hx
      rcases List.mem_append.mp hu with h | h
      · exact hdisj u h x (by simp [hx])
      · have : u = t := by simpa using h
        subst this
        intro he
        exact hnodup.1 (he ▸ List.mem_map_of_mem Trade.tradeID hx)

theorem updateRow_account (ps : List Position) (i : PosID)
    (f : Position → Position) (hf : ∀ p, (f p).accountID = p.accountID)
    (a : String) (hps : ∀ p ∈ ps, p.accountID = a) :
    ∀ p ∈ updateRow ps i f, p.accountID = a := by
  intro p' hp'
  unfold updateRow at hp'
  obtain ⟨p, hp, rfl⟩ := List.mem_map.mp hp'
  by_cases h : p.id = i
  · rw [if_pos h, hf]
    exact hps p hp
  · rw [if_neg h]
    exact hps p hp

theorem upsert_account (ps : List Position) (t : Trade) (a : String)
    (hps : ∀ p ∈ ps, p.accountID = a) (ht : t.accountID = a) :
    ∀ p ∈ UpsertPosition ps t, p.accountID = a := by
  unfold UpsertPosition
  split
  · unfold upsertSpotPosition
    rcases hfind : ps.find? (spotOpenMatch t) with _ | pos
    · simp only
      by_cases hside : t.side = Side.buy
      · rw [if_pos hside]
        intro p hp
        rcases List.mem_append.mp hp with h | h
        · exact hps p h
        · have hpn : p = newSpotPosition t := by simpa using h
          subst hpn
          simpa [newSpotPosition] using ht
      · rw [if_neg hside]
        exact hps
    · simp only
      by_cases hside : t.side = Side.buy
      · rw [if_pos hside]
        refine updateRow_account ps pos.id _ (fun p => ?_) a hps
        rfl
      · rw [if_neg hside]
        by_cases hq : pos.quantity - t.quantity ≤ 0
        · rw [if_pos hq]
          refine updateRow_account ps pos.id _ (fun p => ?_) a hps
          rfl
        · rw [if_neg hq]
          refine updateRow_account ps pos.id _ (fun p => ?_) a hps
          rfl
  · unfold upsertFuturesPosition
    rcases hfind : ps.find? (futuresOpenMatch t) with _ | pos
    · intro p hp
      rcases List.mem_append.mp hp with h | h
      · exact hps p h
      · have hpn : p = newFuturesPosition t := by simpa using h
        subst hpn
        simpa [newFuturesPosition] using ht
    · simp only
      by_cases hcl : ¬ ((pos.side = PositionSide.long ∧ t.side = Side.sell) ∨
          (pos.side = PositionSide.short ∧ t.side = Side.buy))
      · rw [if_pos hcl]
        refine updateRow_account ps pos.id _ (fun p => ?_) a hps
        rfl
      · rw [if_neg hcl]
        by_cases hq : pos.quantity - t.quantity ≤ 0
        · rw [if_pos hq]
          refine updateRow_account ps pos.id _ (fun p => ?_) a hps
          rfl
        · rw [if_neg hq]
          refine updateRow_account ps pos.id _ (fun p => ?_) a hps
          rfl

theorem replay_account (ps : List Position) (ts : List Trade) (a : String)
    (hps : ∀ p ∈ ps, p.accountID = a) (hts : ∀ t ∈ ts, t.accountID = a) :
    ∀ p ∈ replayPositions ps ts, p.accountID = a := by
  induction ts generalizing ps with
  | nil => exact hps
  | cons t tl ih =>
    exact ih _ (upsert_account ps t a hps (hts t (by simp)))
      (fun x hx => hts x (by simp [hx]))

/-- Claim C3.  For a trade log that arrived in `(timestamp ASC, trade_id
ASC)` order with globally unique trade ids, all for one account:
`RebuildPositions` — which deletes the account's position rows and replays
its trades in that order — reproduces exactly the ledger state that
incremental processing via `InsertTradeAndUpdatePosition` built (position
rows equal as exact rationals, hence within any floating-point epsilon),
and repeating the rebuild produces the same rows again. -/
theorem rebuild_equals_incremental (ts : List Trade) (a : String)
    (hacct : ∀ t ∈ ts, t.accountID = a)
    (hsorted : List.Pairwise (fun x y => tradeLE x y = true) ts)
    (hnodup : (ts.map Trade.tradeID).Nodup) :
    RebuildPositions (ingestAll ⟨[], []⟩ ts) a = ingestAll ⟨[], []⟩ ts ∧
    RebuildPositions (RebuildPositions (ingestAll ⟨[], []⟩ ts) a) a =
      RebuildPositions (ingestAll ⟨[], []⟩ ts) a := by
  have hstate : ingestAll ⟨[], []⟩ ts = ⟨ts, replayPositions [] ts⟩ := by
    have h := ingestAll_fresh ⟨[], []⟩ ts (by intro u hu; cases hu) hnodup
    simpa using h
  have hmain : RebuildPositions ⟨ts, replayPositions [] ts⟩ a =
      ⟨ts, replayPositions [] ts⟩ := by
    unfold RebuildPositions
    simp only
    have hfilter : (replayPositions [] ts).filter
        (fun p => !(p.accountID == a)) = [] := by
      rw [List.filter_eq_nil_iff]
      intro p hp
      have hpa := replay_account [] ts a (by intro q hq; cases hq) hacct p hp
      simp [hpa]
    have htfr : TradesForRebuild ⟨ts, replayPositions [] ts⟩ a = ts := by
      unfold TradesForRebuild
      simp only
      have heq : ts.filter (fun t => t.accountID == a) = ts := by
        rw [List.filter_eq_self]
        intro x hx
        simp [hacct x hx]
      rw [heq]
      exact List.mergeSort_of_sorted hsorted
    rw [htfr, hfilter]
  refine ⟨by rw [hstate]; exact hmain, ?_⟩
  rw [hstate, hmain, hmain]

/-- Fixture for the C3 witness: a later sell to pair with `baseTrade`. -/
def sellAfterBase : Trade :=
  { baseTrade with
    tradeID := "t2"
    side := Side.sell
    quantity := 1
    price := 110
    timestamp := 5 }

/-- Witness for `rebuild_equals_incremental`: a two-trade log (buy then
sell, ascending timestamps, distinct ids) for account `live`. -/
theorem rebuild_equals_incremental_witness :
    RebuildPositions (ingestAll ⟨[], []⟩ [baseTrade, sellAfterBase]) "live" =
      ingestAll ⟨[], []⟩ [baseTrade, sellAfterBase] :=
  (rebuild_equals_incremental [baseTrade, sellAfterBase] "live"
    (by intro t ht
        simp only [List.mem_cons, List.not_mem_nil, or_false] at ht
        rcases ht with rfl | rfl
        · rfl
        · rfl)
    (by refine List.Pairwise.cons ?_ (List.pairwise_singleton _ _)
        intro y hy
        simp only [List.mem_singleton] at hy
        subst hy
        decide)
    (by decide)).1

/-! ## C7: open spot position well-formedness -/

/-- The validation contract of `TradeEvent.Validate`
(internal/ingest/event.go:44-49) together with the data model's `fee ≥ 0`
(§3): positive quantity and price, non-negative fee. -/
def ValidTrade (t : Trade) : Prop :=
  0 < t.quantity ∧ 0 < t.price ∧ 0 ≤ t.fee

/-- Engine-generated rows carry their key inside their id (`posID`). -/
def KeyedIds (ps : List Position) : Prop :=
  ∀ p ∈ ps, p.id.accountID = p.accountID ∧ p.id.symbol = p.symbol ∧
    p.id.marketType = p.marketType

/-- The open-spot-row shape of claim C7 with fee slack `B`: long side,
positive quantity and average entry, and
`avg_entry_price · quantity ≤ cost_basis ≤ avg_entry_price · quantity + B`. -/
def SpotRowsOK (ps : List Position) (B : ℚ) : Prop :=
  ∀ p ∈ ps, p.marketType = MarketType.spot →
    p.status = PositionStatus.open_ →
    p.side = PositionSide.long ∧ 0 < p.quantity ∧ 0 < p.avgEntryPrice ∧
    p.avgEntryPrice * p.quantity ≤ p.costBasis ∧
    p.costBasis ≤ p.avgEntryPrice * p.quantity + B

/-- The accumulated fees of a trade batch. -/
def sumFees (ts : List Trade) : ℚ :=
  (ts.map Trade.fee).sum

theorem mem_unique_of_countP_le_one {α : Type} (l : List α) (p : α → Bool)
    (h : l.countP p ≤ 1) (a b : α) (ha : a ∈ l) (hb : b ∈ l)
    (hpa : p a = true) (hpb : p b = true) : a = b := by
  have ha' : a ∈ l.filter p := List.mem_filter.mpr ⟨ha, hpa⟩
  have hb' : b ∈ l.filter p := List.mem_filter.mpr ⟨hb, hpb⟩
  have hlen : (l.filter p).length ≤ 1 := by
    rw [← List.countP_eq_length_filter]
    exact h
  rcases hl : l.filter p with _ | ⟨x, tl⟩
  · rw [hl] at ha'
    cases ha'
  · rcases tl with _ | ⟨y, tl2⟩
    · rw [hl] at ha' hb'
      simp only [List.mem_singleton] at ha' hb'
      rw [ha', hb']
    · rw [hl] at hlen
      simp at hlen

theorem spotRowsOK_mono (ps : List Position) {B C : ℚ} (hBC : B ≤ C)
    (h : SpotRowsOK ps B) : SpotRowsOK ps C := by
  intro p hp h1 h2
  obtain ⟨a1, a2, a3, a4, a5⟩ := h p hp h1 h2
  exact ⟨a1, a2, a3, a4, by linarith⟩

theorem upsert_keyedIds (ps : List Position) (t : Trade)
    (hkey : KeyedIds ps) : KeyedIds (UpsertPosition ps t) := by
  have hupd : ∀ (i : PosID) (f : Position → Position),
      (∀ p, (f p).id = p.id ∧ (f p).accountID = p.accountID ∧
        (f p).symbol = p.symbol ∧ (f p).marketType = p.marketType) →
      KeyedIds (updateRow ps i f) := by
    intro i f hf p' hp'
    obtain ⟨x, hx, rfl⟩ := List.mem_map.mp hp'
    by_cases hid : x.id = i
    · rw [if_pos hid]
      obtain ⟨e1, e2, e3, e4⟩ := hf x
      rw [e1, e2, e3, e4]
      exact hkey x hx
    · rw [if_neg hid]
      exact hkey x hx
  unfold UpsertPosition
  by_cases hmt : t.marketType = MarketType.spot
  · rw [if_pos hmt]
    unfold upsertSpotPosition
    rcases hfind : ps.find? (spotOpenMatch t) with _ | pos
    · by_cases hside : t.side = Side.buy
      · rw [if_pos hside]
        intro p hp
        rcases List.mem_append.mp hp with hmem | hmem
        · exact hkey p hmem
        · have hpn : p = newSpotPosition t := by simpa using hmem
          subst hpn
          refine ⟨rfl, rfl, ?_⟩
          simp [newSpotPosition, posID, hmt]
      · rw [if_neg hside]
        exact hkey
    · simp only
      by_cases hside : t.side = Side.buy
      · rw [if_pos hside]
        exact hupd _ _ (fun p => ⟨rfl, rfl, rfl, rfl⟩)
      · rw [if_neg hside]
        by_cases hq : pos.quantity - t.quantity ≤ 0
        · rw [if_pos hq]
          exact hupd _ _ (fun p => ⟨rfl, rfl, rfl, rfl⟩)
        · rw [if_neg hq]
          exact hupd _ _ (fun p => ⟨rfl, rfl, rfl, rfl⟩)
  · rw [if_neg hmt]
    have hmtf : t.marketType = MarketType.futures := by
      cases hc : t.marketType
      · exact absurd hc hmt
      · rfl
    unfold upsertFuturesPosition
    rcases hfind : ps.find? (futuresOpenMatch t) with _ | pos
    · intro p hp
      rcases List.mem_append.mp hp with hmem | hmem
      · exact hkey p hmem
      · have hpn : p = newFuturesPosition t := by simpa using hmem
        subst hpn
        refine ⟨rfl, rfl, ?_⟩
        simp [newFuturesPosition, posID, hmtf]
    · simp only
      by_cases hcl : ¬ ((pos.side = PositionSide.long ∧ t.side = Side.sell) ∨
          (pos.side = PositionSide.short ∧ t.side = Side.buy))
      · rw [if_pos hcl]
        exact hupd _ _ (fun p => ⟨rfl, rfl, rfl, rfl⟩)
      · rw [if_neg hcl]
        by_cases hq : pos.quantity - t.quantity ≤ 0
        · rw [if_pos hq]
          exact hupd _ _ (fun p => ⟨rfl, rfl, rfl, rfl⟩)
        · rw [if_neg hq]
          exact hupd _ _ (fun p => ⟨rfl, rfl, rfl, rfl⟩)

theorem upsert_spotRowsOK (ps : List Position) (t : Trade) (B : ℚ)
    (hB : 0 ≤ B) (hv : ValidTrade t)
    (hkey : KeyedIds ps) (huniq : OpenUnique ps) (hok : SpotRowsOK ps B) :
    SpotRowsOK (UpsertPosition ps t) (B + t.fee) := by
  obtain ⟨hq, hp, hf⟩ := hv
  have hmono : SpotRowsOK ps (B + t.fee) :=
    spotRowsOK_mono ps (by linarith) hok
  unfold UpsertPosition
  by_cases hmt : t.marketType = MarketType.spot
  · rw [if_pos hmt]
    unfold upsertSpotPosition
    rcases hfind : ps.find? (spotOpenMatch t) with _ | pos
    · by_cases hside : t.side = Side.buy
      · rw [if_pos hside]
        intro p hp' h1 h2
        rcases List.mem_append.mp hp' with hmem | hmem
        · exact hmono p hmem h1 h2
        · have hpn : p = newSpotPosition t := by simpa using hmem
          subst hpn
          refine ⟨rfl, hq, hp, ?_, ?_⟩
          · show t.price * t.quantity ≤ t.quantity * t.price + t.fee
            nlinarith
          · show t.quantity * t.price + t.fee ≤
              t.price * t.quantity + (B + t.fee)
            nlinarith
      · rw [if_neg hside]
        exact hmono
    · have hposmem : pos ∈ ps := List.mem_of_find?_eq_some hfind
      have hmatch : spotOpenMatch t pos = true := List.find?_some hfind
      have hmm := hmatch
      simp only [spotOpenMatch, Bool.and_eq_true, beq_iff_eq] at hmm
      obtain ⟨⟨⟨hpa, hpsym⟩, hpmt⟩, hpst⟩ := hmm
      obtain ⟨hlong, hq0, havg0, hcb1, hcb2⟩ := hok pos hposmem hpmt hpst
      have hopen_eq : ∀ x ∈ ps, x.id = pos.id →
          x.status = PositionStatus.open_ → x = pos := by
        intro x hx hid hst
        obtain ⟨hk1, hk2, hk3⟩ := hkey x hx
        obtain ⟨hp1, hp2, hp3⟩ := hkey pos hposmem
        refine mem_unique_of_countP_le_one ps
          (openKey t.accountID t.symbol MarketType.spot)
          (huniq t.accountID t.symbol MarketType.spot) x pos hx hposmem ?_ ?_
        · have e1 : x.accountID = t.accountID := by
            rw [← hk1, hid, hp1, hpa]
          have e2 : x.symbol = t.symbol := by
            rw [← hk2, hid, hp2, hpsym]
          have e3 : x.marketType = MarketType.spot := by
            rw [← hk3, hid, hp3, hpmt]
          simp [openKey, e1, e2, e3, hst]
        · simp [openKey, hpa, hpsym, hpmt, hpst]
      simp only
      by_cases hside : t.side = Side.buy
      · rw [if_pos hside]
        intro p' hp' h1 h2
        unfold updateRow at hp'
        obtain ⟨x, hx, rfl⟩ := List.mem_map.mp hp'
        by_cases hid : x.id = pos.id
        · rw [if_pos hid] at h1 h2 ⊢
          have hxopen : x.status = PositionStatus.open_ := h2
          have hxp : x = pos := hopen_eq x hx hid hxopen
          subst hxp
          have hq' : 0 < x.quantity + t.quantity := by linarith
          have hcbpos : 0 < x.costBasis + (t.quantity * t.price + t.fee) := by
            nlinarith
          refine ⟨hlong, hq', div_pos hcbpos hq', ?_, ?_⟩
          · show (x.costBasis + (t.quantity * t.price + t.fee)) /
                (x.quantity + t.quantity) * (x.quantity + t.quantity) ≤
              x.costBasis + (t.quantity * t.price + t.fee)
            rw [div_mul_cancel₀ _ (ne_of_gt hq')]
          · show x.costBasis + (t.quantity * t.price + t.fee) ≤
              (x.costBasis + (t.quantity * t.price + t.fee)) /
                (x.quantity + t.quantity) * (x.quantity + t.quantity) +
                (B + t.fee)
            rw [div_mul_cancel₀ _ (ne_of_gt hq')]
            linarith
        · rw [if_neg hid] at h1 h2 ⊢
          exact hmono x hx h1 h2
      · rw [if_neg hside]
        by_cases hqc : pos.quantity - t.quantity ≤ 0
        · rw [if_pos hqc]
          intro p' hp' h1 h2
          unfold updateRow at hp'
          obtain ⟨x, hx, rfl⟩ := List.mem_map.mp hp'
          by_cases hid : x.id = pos.id
          · rw [if_pos hid] at h1 h2 ⊢
            cases h2
          · rw [if_neg hid] at h1 h2 ⊢
            exact hmono x hx h1 h2
        · rw [if_neg hqc]
          intro p' hp' h1 h2
          unfold updateRow at hp'
          obtain ⟨x, hx, rfl⟩ := List.mem_map.mp hp'
          by_cases hid : x.id = pos.id
          · rw [if_pos hid] at h1 h2 ⊢
            have hxopen : x.status = PositionStatus.open_ := h2
            have hxp : x = pos := hopen_eq x hx hid hxopen
            subst hxp
            push_neg at hqc
            refine ⟨hlong, ?_, havg0, ?_, ?_⟩
            · show 0 < x.quantity - t.quantity
              linarith
            · show x.avgEntryPrice * (x.quantity - t.quantity) ≤
                x.avgEntryPrice * (x.quantity - t.quantity)
              exact le_refl _
            · show x.avgEntryPrice * (x.quantity - t.quantity) ≤
                x.avgEntryPrice * (x.quantity - t.quantity) + (B + t.fee)
              linarith
          · rw [if_neg hid] at h1 h2 ⊢
            exact hmono x hx h1 h2
  · rw [if_neg hmt]
    have hmtf : t.marketType = MarketType.futures := by
      cases hc : t.marketType
      · exact absurd hc hmt
      · rfl
    unfold upsertFuturesPosition
    rcases hfind : ps.find? (futuresOpenMatch t) with _ | pos
    · intro p hp' h1 h2
      rcases List.mem_append.mp hp' with hmem | hmem
      · exact hmono p hmem h1 h2
      · have hpn : p = newFuturesPosition t := by simpa using hmem
        subst hpn
        cases h1
    · have hposmem : pos ∈ ps := List.mem_of_find?_eq_some hfind
      have hmatch : futuresOpenMatch t pos = true := List.find?_some hfind
      have hmm := hmatch
      simp only [futuresOpenMatch, Bool.and_eq_true, beq_iff_eq] at hmm
      obtain ⟨⟨⟨hpa, hpsym⟩, hpmt⟩, hpst⟩ := hmm
      have hspot_ne : ∀ x ∈ ps, x.id = pos.id →
          ¬ x.marketType = MarketType.spot := by
        intro x hx hid hc
        obtain ⟨hk1, hk2, hk3⟩ := hkey x hx
        obtain ⟨hp1, hp2, hp3⟩ := hkey pos hposmem
        have : x.marketType = MarketType.futures := by
          rw [← hk3, hid, hp3, hpmt]
        rw [hc] at this
        cases this
      have hupd : ∀ (f : Position → Position),
          (∀ x, (f x).marketType = x.marketType ∧ (f x).status = x.status ∧
            (f x).side = x.side ∧ (f x).quantity = x.quantity ∧
            (f x).avgEntryPrice = x.avgEntryPrice ∧
            (f x).costBasis = x.costBasis) →
          SpotRowsOK (updateRow ps pos.id f) (B + t.fee) := by
        intro f hfp p' hp' h1 h2
        unfold updateRow at hp'
        obtain ⟨x, hx, rfl⟩ := List.mem_map.mp hp'
        by_cases hid : x.id = pos.id
        · rw [if_pos hid] at h1 h2 ⊢
          obtain ⟨e1, _, _, _, _, _⟩ := hfp x
          rw [e1] at h1
          exact absurd h1 (hspot_ne x hx hid)
        · rw [if_neg hid] at h1 h2 ⊢
          exact hmono x hx h1 h2
      simp only
      by_cases hcl : ¬ ((pos.side = PositionSide.long ∧ t.side = Side.sell) ∨
          (pos.side = PositionSide.short ∧ t.side = Side.buy))
      · rw [if_pos hcl]
        intro p' hp' h1 h2
        unfold updateRow at hp'
        obtain ⟨x, hx, rfl⟩ := List.mem_map.mp hp'
        by_cases hid : x.id = pos.id
        · rw [if_pos hid] at h1 h2 ⊢
          exact absurd h1 (hspot_ne x hx hid)
        · rw [if_neg hid] at h1 h2 ⊢
          exact hmono x hx h1 h2
      · rw [if_neg hcl]
        by_cases hqc : pos.quantity - t.quantity ≤ 0
        · rw [if_pos hqc]
          intro p' hp' h1 h2
          unfold updateRow at hp'
          obtain ⟨x, hx, rfl⟩ := List.mem_map.mp hp'
          by_cases hid : x.id = pos.id
          · rw [if_pos hid] at h1 h2 ⊢
            exact absurd h1 (hspot_ne x hx hid)
          · rw [if_neg hid] at h1 h2 ⊢
            exact hmono x hx h1 h2
        · rw [if_neg hqc]
          intro p' hp' h1 h2
          unfold updateRow at hp'
          obtain ⟨x, hx, rfl⟩ := List.mem_map.mp hp'
          by_cases hid : x.id = pos.id
          · rw [if_pos hid] at h1 h2 ⊢
            exact absurd h1 (hspot_ne x hx hid)
          · rw [if_neg hid] at h1 h2 ⊢
            exact hmono x hx h1 h2

theorem replay_engineInv (ts : List Trade) :
    ∀ (ps : List Position) (B : ℚ), 0 ≤ B →
    (∀ t ∈ ts, ValidTrade t) →
    KeyedIds ps → OpenUnique ps → SpotRowsOK ps B →
    KeyedIds (replayPositions ps ts) ∧ OpenUnique (replayPositions ps ts) ∧
      SpotRowsOK (replayPositions ps ts) (B + sumFees ts) := by
  induction ts with
  | nil =>
    intro ps B hB hv hk hu ho
    refine ⟨hk, hu, ?_⟩
    simpa [replayPositions, sumFees] using ho
  | cons t tl ih =>
    intro ps B hB hv hk hu ho
    have hvt : ValidTrade t := hv t (by simp)
    have h1 := upsert_keyedIds ps t hk
    have h2 := upsert_openUnique ps t hu
    have h3 := upsert_spotRowsOK ps t B hB hvt hk hu ho
    have hB' : 0 ≤ B + t.fee := by
      obtain ⟨_, _, hfee⟩ := hvt
      linarith
    have hrec := ih (UpsertPosition ps t) (B + t.fee) hB'
      (fun x hx => hv x (by simp [hx])) h1 h2 h3
    simpa [replayPositions, sumFees, add_assoc] using hrec

/-- Claim C7.  Every open spot position produced by replaying any sequence
of valid trades (positive quantity and price, non-negative fee — the
`TradeEvent.Validate` contract) through the position engine satisfies:
`side = long`, `quantity > 0`, `avg_entry_price > 0`, and
`avg_entry_price · quantity ≤ cost_basis ≤ avg_entry_price · quantity + F`
where `F` is the accumulated fees of the sequence; buys re-derive
`avg_entry_price = cost_basis / quantity` and partial sells reset
`cost_basis = avg_entry_price · remaining quantity`, so the bound is
preserved by every step. -/
theorem spot_open_invariant (ts : List Trade)
    (hv : ∀ t ∈ ts, ValidTrade t) :
    ∀ p ∈ replayPositions [] ts,
      p.marketType = MarketType.spot → p.status = PositionStatus.open_ →
      p.side = PositionSide.long ∧ 0 < p.quantity ∧ 0 < p.avgEntryPrice ∧
      p.avgEntryPrice * p.quantity ≤ p.costBasis ∧
      p.costBasis ≤ p.avgEntryPrice * p.quantity + sumFees ts := by
  have h := replay_engineInv ts [] 0 (le_refl 0) hv
    (by intro p hp; cases hp) (by intro a sym mt; simp)
    (by intro p hp; cases hp)
  have h3 := h.2.2
  intro p hp h1 h2
  have := h3 p hp h1 h2
  simpa using this

/-- Witness for `spot_open_invariant`: replaying the single fixture buy
produces one open spot row satisfying every conjunct. -/
theorem spot_open_invariant_witness :
    (newSpotPosition baseTrade).side = PositionSide.long ∧
    0 < (newSpotPosition baseTrade).quantity ∧
    0 < (newSpotPosition baseTrade).avgEntryPrice ∧
    (newSpotPosition baseTrade).avgEntryPrice *
        (newSpotPosition baseTrade).quantity ≤
      (newSpotPosition baseTrade).costBasis ∧
    (newSpotPosition baseTrade).costBasis ≤
      (newSpotPosition baseTrade).avgEntryPrice *
          (newSpotPosition baseTrade).quantity +
        sumFees [baseTrade] := by
  have hmem : newSpotPosition baseTrade ∈ replayPositions [] [baseTrade] := by
    simp [replayPositions, UpsertPosition, upsertSpotPosition, baseTrade]
  exact spot_open_invariant [baseTrade]
    (by intro x hx
        simp only [List.mem_singleton] at hx
        subst hx
        refine ⟨?_, ?_, ?_⟩ <;> norm_num [baseTrade])
    (newSpotPosition baseTrade) hmem rfl rfl

/-! ## Cursor encoding (trades store file, lines 161-180)

Go strings are byte strings; this section models them as `List Nat` with
bytes below 256.  `base64.URLEncoding` (alphabet `A-Za-z0-9-_`, `=`
padding, permissive about non-zero trailing padding bits, as Go's default
decoder is) is implemented bit-faithfully over those bytes.  Go renders
the cursor timestamp with `time.Time.Format(RFC3339Nano)` and reads it
back with `time.Parse(RFC3339Nano)`; that stdlib pair is modelled as an
injective pipe-free ASCII rendering of the `Int` instant (decimal) with
its exact parser, keeping the properties the cursor relies on: the
rendering never contains the `|` separator (byte 124) and parsing inverts
formatting to a timestamp denoting the same instant. -/

/-- One base64url alphabet character (as a byte) for a 6-bit value. -/
def b64char (n : Nat) : Nat :=
  if n < 26 then 65 + n
  else if n < 52 then 71 + n
  else if n < 62 then n - 4
  else if n = 62 then 45
  else 95

/-- Inverse of `b64char`: the 6-bit value of an alphabet byte. -/
def b64val (c : Nat) : Option Nat :=
  if 65 ≤ c ∧ c ≤ 90 then some (c - 65)
  else if 97 ≤ c ∧ c ≤ 122 then some (c - 71)
  else if 48 ≤ c ∧ c ≤ 57 then some (c + 4)
  else if c = 45 then some 62
  else if c = 95 then some 63
  else none

/-- `base64.URLEncoding.EncodeToString` over bytes. -/
def b64encode : List Nat → List Nat
  | [] => []
  | [b0] => [b64char (b0 / 4), b64char (b0 % 4 * 16), 61, 61]
  | [b0, b1] =>
    [b64char (b0 / 4), b64char (b0 % 4 * 16 + b1 / 16),
      b64char (b1 % 16 * 4), 61]
  | b0 :: b1 :: b2 :: rest =>
    b64char (b0 / 4) :: b64char (b0 % 4 * 16 + b1 / 16) ::
      b64char (b1 % 16 * 4 + b2 / 64) :: b64char (b2 % 64) :: b64encode rest

/-- `base64.URLEncoding.DecodeString` over bytes: groups of four alphabet
bytes, padding `=` (byte 61) only in the final group. -/
def b64decode : List Nat → Option (List Nat)
  | [] => some []
  | c0 :: c1 :: c2 :: c3 :: rest =>
    if c2 = 61 then
      if c3 = 61 ∧ rest = [] then
        match b64val c0, b64val c1 with
        | some v0, some v1 => some [v0 * 4 + v1 / 16]
        | _, _ => none
      else none
    else if c3 = 61 then
      if rest = [] then
        match b64val c0, b64val c1, b64val c2 with
        | some v0, some v1, some v2 =>
          some [v0 * 4 + v1 / 16, v1 % 16 * 16 + v2 / 4]
        | _, _, _ => none
      else none
    else
      match b64val c0, b64val c1, b64val c2, b64val c3, b64decode rest with
      | some v0, some v1, some v2, some v3, some tl =>
        some ((v0 * 4 + v1 / 16) :: (v1 % 16 * 16 + v2 / 4) ::
          (v2 % 4 * 64 + v3) :: tl)
      | _, _, _, _, _ => none
  | _ => none

theorem b64val_char : ∀ v, v < 64 → b64val (b64char v) = some v := by
  decide

theorem b64char_ne_pad : ∀ v, v < 64 → ¬ b64char v = 61 := by
  decide

theorem b64_roundtrip : ∀ bs : List Nat, (∀ b ∈ bs, b < 256) →
    b64decode (b64encode bs) = some bs
  | [], _ => rfl
  | [b0], h => by
    have hb0 : b0 < 256 := h b0 (by simp)
    show b64decode [b64char (b0 / 4), b64char (b0 % 4 * 16), 61, 61] =
      some [b0]
    unfold b64decode
    rw [if_pos rfl, if_pos (by simp), b64val_char _ (by omega),
      b64val_char _ (by omega)]
    simp only [Option.some.injEq, List.cons.injEq, and_true]
    omega
  | [b0, b1], h => by
    have hb0 : b0 < 256 := h b0 (by simp)
    have hb1 : b1 < 256 := h b1 (by simp)
    show b64decode [b64char (b0 / 4), b64char (b0 % 4 * 16 + b1 / 16),
      b64char (b1 % 16 * 4), 61] = some [b0, b1]
    unfold b64decode
    rw [if_neg (b64char_ne_pad _ (by omega)), if_pos rfl, if_pos rfl,
      b64val_char _ (by omega), b64val_char _ (by omega),
      b64val_char _ (by omega)]
    simp only [Option.some.injEq, List.cons.injEq, and_true]
    constructor
    · omega
    · omega
  | b0 :: b1 :: b2 :: rest, h => by
    have hb0 : b0 < 256 := h b0 (by simp)
    have hb1 : b1 < 256 := h b1 (by simp)
    have hb2 : b2 < 256 := h b2 (by simp)
    have ih := b64_roundtrip rest (fun x hx => h x (by simp [hx]))
    show b64decode (b64char (b0 / 4) :: b64char (b0 % 4 * 16 + b1 / 16) ::
      b64char (b1 % 16 * 4 + b2 / 64) :: b64char (b2 % 64) ::
      b64encode rest) = some (b0 :: b1 :: b2 :: rest)
    unfold b64decode
    rw [if_neg (b64char_ne_pad _ (by omega)),
      if_neg (b64char_ne_pad _ (by omega)), b64val_char _ (by omega),
      b64val_char _ (by omega), b64val_char _ (by omega),
      b64val_char _ (by omega), ih]
    simp only [Option.some.injEq, List.cons.injEq]
    refine ⟨by omega, by omega, by omega, trivial⟩

/-- ASCII decimal digits of a natural number, most significant first
(empty for 0). -/
def natDigits : Nat → List Nat
  | 0 => []
  | n + 1 => natDigits ((n + 1) / 10) ++ [48 + (n + 1) % 10]
decreasing_by exact Nat.div_lt_self (Nat.succ_pos n) (by omega)

/-- The injective ASCII rendering standing in for
`time.Time.Format(RFC3339Nano)` (see the section comment). -/
def fmtTime (z : Int) : List Nat :=
  if z < 0 then 45 :: natDigits z.natAbs
  else if z = 0 then [48]
  else natDigits z.natAbs

/-- Digit-by-digit accumulator parse; fails on any non-digit byte. -/
def parseDigits : List Nat → Nat → Option Nat
  | [], acc => some acc
  | c :: rest, acc =>
    if 48 ≤ c ∧ c ≤ 57 then parseDigits rest (acc * 10 + (c - 48))
    else none

/-- The parser standing in for `time.Parse(time.RFC3339Nano, ...)`:
exact inverse of `fmtTime`. -/
def parseTime (l : List Nat) : Option Int :=
  match l with
  | [] => none
  | c :: rest =>
    if c = 45 then
      if rest = [] then none
      else
        match parseDigits rest 0 with
        | some n => some (-(n : Int))
        | none => none
    else
      match parseDigits (c :: rest) 0 with
      | some n => some (n : Int)
      | none => none

theorem natDigits_bounds (n : Nat) : ∀ b ∈ natDigits n, 48 ≤ b ∧ b ≤ 57 := by
  induction n using Nat.strong_induction_on with
  | _ n ih =>
    rcases n with _ | m
    · simp [natDigits]
    · rw [natDigits]
      intro b hb
      rcases List.mem_append.mp hb with h | h
      · exact ih ((m + 1) / 10) (Nat.div_lt_self (Nat.succ_pos m) (by omega)) b h
      · have hbe : b = 48 + (m + 1) % 10 := by simpa using h
        omega

theorem natDigits_nonempty (n : Nat) (hn : n ≠ 0) : natDigits n ≠ [] := by
  rcases n with _ | m
  · exact absurd rfl hn
  · rw [natDigits]
    simp

theorem parseDigits_append (l₁ l₂ : List Nat) (acc : Nat) :
    parseDigits (l₁ ++ l₂) acc =
      match parseDigits l₁ acc with
      | some a => parseDigits l₂ a
      | none => none := by
  induction l₁ generalizing acc with
  | nil => rfl
  | cons c rest ih =>
    have hl : parseDigits ((c :: rest) ++ l₂) acc =
        if 48 ≤ c ∧ c ≤ 57 then parseDigits (rest ++ l₂) (acc * 10 + (c - 48))
        else none := rfl
    have hr : parseDigits (c :: rest) acc =
        if 48 ≤ c ∧ c ≤ 57 then parseDigits rest (acc * 10 + (c - 48))
        else none := rfl
    rw [hl, hr]
    by_cases hc : 48 ≤ c ∧ c ≤ 57
    · rw [if_pos hc, if_pos hc, ih]
    · rw [if_neg hc, if_neg hc]

theorem parseDigits_natDigits (n : Nat) : ∀ acc : Nat,
    parseDigits (natDigits n) acc =
      some (acc * 10 ^ (natDigits n).length + n) := by
  induction n using Nat.strong_induction_on with
  | _ n ih =>
    rcases n with _ | m
    · intro acc
      simp [natDigits, parseDigits]
    · intro acc
      rw [natDigits, parseDigits_append,
        ih ((m + 1) / 10) (Nat.div_lt_self (Nat.succ_pos m) (by omega)) acc]
      have hd : 48 ≤ 48 + (m + 1) % 10 ∧ 48 + (m + 1) % 10 ≤ 57 := by omega
      unfold parseDigits
      rw [if_pos hd]
      unfold parseDigits
      simp only [List.length_append, List.length_cons, List.length_nil,
        Option.some.injEq]
      have hdm : (m + 1) / 10 * 10 + (m + 1) % 10 = m + 1 := by
        omega
      rw [pow_succ]
      ring_nf
      omega

theorem parseTime_fmtTime (z : Int) : parseTime (fmtTime z) = some z := by
  unfold fmtTime
  by_cases hz : z < 0
  · rw [if_pos hz]
    have hzn : z.natAbs ≠ 0 := by omega
    have hne : natDigits z.natAbs ≠ [] := natDigits_nonempty _ hzn
    show parseTime (45 :: natDigits z.natAbs) = some z
    simp only [parseTime]
    rw [if_pos trivial, if_neg hne, parseDigits_natDigits z.natAbs 0]
    simp only [Nat.zero_mul, Nat.zero_add, Option.some.injEq]
    omega
  · by_cases hz0 : z = 0
    · rw [if_neg hz, if_pos hz0]
      show parseTime [48] = some z
      simp only [parseTime]
      rw [if_neg (by omega : ¬ (48 : Nat) = 45),
        show parseDigits [48] 0 = some 0 from rfl]
      simp only [Option.some.injEq]
      omega
    · rw [if_neg hz, if_neg hz0]
      have hzn : z.natAbs ≠ 0 := by omega
      rcases hnd : natDigits z.natAbs with _ | ⟨d, ds⟩
      · exact absurd hnd (natDigits_nonempty _ hzn)
      · have hd : 48 ≤ d ∧ d ≤ 57 := by
          have := natDigits_bounds z.natAbs d (by rw [hnd]; simp)
          exact this
        show parseTime (d :: ds) = some z
        simp only [parseTime]
        rw [if_neg (by omega : ¬ d = 45)]
        have hp := parseDigits_natDigits z.natAbs 0
        rw [hnd] at hp
        rw [hp]
        simp only [Nat.zero_mul, Nat.zero_add, Option.some.injEq]
        omega

theorem fmtTime_bounds (z : Int) : ∀ b ∈ fmtTime z, b < 256 ∧ b ≠ 124 := by
  unfold fmtTime
  by_cases hz : z < 0
  · rw [if_pos hz]
    intro b hb
    rcases List.mem_cons.mp hb with h | h
    · omega
    · have := natDigits_bounds z.natAbs b h
      omega
  · by_cases hz0 : z = 0
    · rw [if_neg hz, if_pos hz0]
      intro b hb
      have : b = 48 := by simpa using hb
      omega
    · rw [if_neg hz, if_neg hz0]
      intro b hb
      have := natDigits_bounds z.natAbs b hb
      omega

/-- `strings.SplitN(s, "|", 2)` (trades store file, line 171), partial to
the two-part case the decoder demands: split at the first `|` (byte 124);
`none` when no separator occurs. -/
def splitOnFirstPipe : List Nat → Option (List Nat × List Nat)
  | [] => none
  | b :: rest =>
    if b = 124 then some ([], rest)
    else
      match splitOnFirstPipe rest with
      | some (l, r) => some (b :: l, r)
      | none => none

theorem splitOnFirstPipe_append (l₁ l₂ : List Nat)
    (h : ∀ b ∈ l₁, b ≠ 124) :
    splitOnFirstPipe (l₁ ++ 124 :: l₂) = some (l₁, l₂) := by
  induction l₁ with
  | nil =>
    show splitOnFirstPipe (124 :: l₂) = some ([], l₂)
    unfold splitOnFirstPipe
    rw [if_pos rfl]
  | cons b rest ih =>
    show splitOnFirstPipe (b :: (rest ++ 124 :: l₂)) = some (b :: rest, l₂)
    unfold splitOnFirstPipe
    rw [if_neg (h b (by simp)), ih (fun x hx => h x (by simp [hx]))]

/-- `encodeCursor` (trades store file, lines 161-164):
`base64url("<ts>|<id>")`. -/
def encodeCursor (ts : Int) (id : List Nat) : List Nat :=
  b64encode (fmtTime ts ++ 124 :: id)

/-- `decodeCursor` (trades store file, lines 166-180): base64url decode,
split at the first `|`, parse the timestamp; any failure is an error. -/
def decodeCursor (cursor : List Nat) : Option (Int × List Nat) :=
  match b64decode cursor with
  | none => none
  | some raw =>
    match splitOnFirstPipe raw with
    | none => none
    | some (tsPart, idPart) =>
      match parseTime tsPart with
      | none => none
      | some ts => some (ts, idPart)

/-- Claim C10.  For every representable timestamp and every id byte
string — including ids that contain the `|` separator — decoding the
encoded cursor succeeds and returns a timestamp denoting the same instant
together with the identical id: `decodeCursor (encodeCursor ts id) =
some (ts, id)`. -/
theorem cursor_roundtrip (ts : Int) (id : List Nat)
    (hid : ∀ b ∈ id, b < 256) :
    decodeCursor (encodeCursor ts id) = some (ts, id) := by
  unfold encodeCursor decodeCursor
  have hbytes : ∀ b ∈ fmtTime ts ++ 124 :: id, b < 256 := by
    intro b hb
    rcases List.mem_append.mp hb with h | h
    · exact (fmtTime_bounds ts b h).1
    · rcases List.mem_cons.mp h with h2 | h2
      · omega
      · exact hid b h2
  simp only [b64_roundtrip _ hbytes,
    splitOnFirstPipe_append _ _ (fun b hb => (fmtTime_bounds ts b hb).2),
    parseTime_fmtTime]

/-- Witness for `cursor_roundtrip`: a concrete instant and an id that
itself contains the `|` byte (`a|b`). -/
theorem cursor_roundtrip_witness :
    decodeCursor (encodeCursor 1704067200 [97, 124, 98]) =
      some (1704067200, [97, 124, 98]) :=
  cursor_roundtrip 1704067200 [97, 124, 98] (by decide)

/-! ## C9: ListTrades pagination (trades store file, lines 54-159) -/

/-- Byte-lexicographic strict comparison, as Go compares strings
(`<` on `string` and SQL text comparison of `trade_id` under C collation). -/
def listLt : List Nat → List Nat → Bool
  | [], [] => false
  | [], _ :: _ => true
  | _ :: _, [] => false
  | a :: as, b :: bs =>
    if a < b then true
    else if b < a then false
    else listLt as bs

/-- Go string bytes (codepoints; identical for the ASCII data at hand). -/
def strToBytes (s : String) : List Nat :=
  s.toList.map Char.toNat

/-- The stored text of a trade side (`string(trade.Side)`). -/
def sideStr : Side → String
  | Side.buy => "buy"
  | Side.sell => "sell"

/-- The stored text of a market type (`string(trade.MarketType)`). -/
def mtStr : MarketType → String
  | MarketType.spot => "spot"
  | MarketType.futures => "futures"

/-- `store.TradeFilter`: zero values (empty string, nil pointer, zero or
negative limit) mean "no filter", as in the Go struct. -/
structure TradeFilter where
  Symbol : String
  Side : String
  MarketType : String
  Start : Option Int
  End : Option Int
  Cursor : List Nat
  Limit : Int
deriving DecidableEq, Repr

/-- `store.TradeListResult`; `NextCursor = none` models the omitted empty
string. -/
structure TradeListResult where
  Trades : List Trade
  NextCursor : Option (List Nat)
deriving DecidableEq, Repr

/-- The `WHERE` clause `ListTrades` assembles (lines 63-108): account,
optional symbol/side/market/start/end filters, and the keyset condition
`(timestamp, trade_id) < (cursor_ts, cursor_id)` when a cursor is given. -/
def rowMatches (accountID : String) (f : TradeFilter)
    (cur : Option (Int × List Nat)) (t : Trade) : Bool :=
  t.accountID == accountID &&
  (f.Symbol == "" || t.symbol == f.Symbol) &&
  (f.Side == "" || sideStr t.side == f.Side) &&
  (f.MarketType == "" || mtStr t.marketType == f.MarketType) &&
  (match f.Start with
   | none => true
   | some s => decide (s ≤ t.timestamp)) &&
  (match f.End with
   | none => true
   | some e => decide (t.timestamp ≤ e)) &&
  (match cur with
   | none => true
   | some c => decide (t.timestamp < c.1 ∨
       (t.timestamp = c.1 ∧ listLt (strToBytes t.tradeID) c.2 = true)))

/-- `ORDER BY timestamp DESC, trade_id DESC` as a Boolean total preorder
(ties broken deterministically; `trade_id` is unique). -/
def tradeGE (a b : Trade) : Bool :=
  decide (b.timestamp < a.timestamp ∨
    (b.timestamp = a.timestamp ∧
      (listLt (strToBytes b.tradeID) (strToBytes a.tradeID) = true ∨
        b.tradeID = a.tradeID)))

/-- Cursor handling at the top of the query build (lines 97-108): empty
cursor means none; a cursor that fails `decodeCursor` is an error. -/
def resolveCursor (c : List Nat) : Option (Option (Int × List Nat)) :=
  if c = [] then some none
  else
    match decodeCursor c with
    | none => none
    | some p => some (some p)

/-- `ListTrades` (lines 54-159): normalize the limit (≤ 0 becomes 50,
above 200 becomes 200), resolve the cursor, fetch `limit+1` matching rows
in descending keyset order, and emit `next_cursor` from the last returned
row exactly when the extra row exists. -/
def ListTrades (table : List Trade) (accountID : String) (f : TradeFilter) :
    Option TradeListResult :=
  let limit0 := if f.Limit ≤ 0 then 50 else f.Limit
  let limit := (if limit0 > 200 then 200 else limit0).toNat
  match resolveCursor f.Cursor with
  | none => none
  | some cur =>
    let rows := ((table.filter (rowMatches accountID f cur)).mergeSort
      tradeGE).take (limit + 1)
    if rows.length > limit then
      let trades := rows.take limit
      match trades.getLast? with
      | some last =>
        some ⟨trades,
          some (encodeCursor last.timestamp (strToBytes last.tradeID))⟩
      | none => some ⟨trades, none⟩
    else some ⟨rows, none⟩

/-- Claim C9.  `ListTrades`: a non-positive limit is treated as 50 and a
limit above 200 as 200 (the call behaves exactly as with the normalized
limit); the store fetches `limit+1` rows in `(timestamp, trade_id)`
descending order and returns a `next_cursor` derived from the last
returned row exactly when the extra row exists; a cursor that does not
decode as base64url `"<ts>|<id>"` makes the call fail (bad input) rather
than return rows. -/
theorem listTrades_spec (table : List Trade) (a : String) (f : TradeFilter) :
    (f.Cursor ≠ [] → decodeCursor f.Cursor = none →
      ListTrades table a f = none) ∧
    (f.Limit ≤ 0 →
      ListTrades table a f = ListTrades table a { f with Limit := 50 }) ∧
    (200 < f.Limit →
      ListTrades table a f = ListTrades table a { f with Limit := 200 }) ∧
    (∀ cur, resolveCursor f.Cursor = some cur → 1 ≤ f.Limit →
      f.Limit ≤ 200 →
      ∃ r, ListTrades table a f = some r ∧
        r.Trades = ((table.filter (rowMatches a f cur)).mergeSort
          tradeGE).take f.Limit.toNat ∧
        ((table.filter (rowMatches a f cur)).length ≤ f.Limit.toNat →
          r.NextCursor = none) ∧
        (f.Limit.toNat < (table.filter (rowMatches a f cur)).length →
          ∃ last, r.Trades.getLast? = some last ∧
            r.NextCursor = some (encodeCursor last.timestamp
              (strToBytes last.tradeID)))) := by
  obtain ⟨sym, sd, mt, st, en, cu, lim⟩ := f
  refine ⟨?_, ?_, ?_, ?_⟩
  · intro hne hdec
    unfold ListTrades resolveCursor
    simp only at hne hdec ⊢
    rw [if_neg hne, hdec]
  · intro hle
    unfold ListTrades
    simp only at hle ⊢
    rw [if_pos hle, if_neg (by norm_num : ¬ (50 : Int) ≤ 0)]
    rfl
  · intro hgt
    unfold ListTrades
    simp only at hgt ⊢
    rw [if_neg (by omega : ¬ lim ≤ 0), if_pos hgt,
      if_neg (by norm_num : ¬ (200 : Int) ≤ 0),
      if_neg (by norm_num : ¬ (200 : Int) > 200)]
    rfl
  · intro cur hcur h1 h200
    unfold ListTrades
    simp only at hcur h1 h200 ⊢
    rw [hcur]
    simp only
    rw [if_neg (by omega : ¬ lim ≤ 0), if_neg (by omega : ¬ lim > 200)]
    set f0 : TradeFilter := ⟨sym, sd, mt, st, en, cu, lim⟩ with hf0
    set sorted := (table.filter (rowMatches a f0 cur)).mergeSort tradeGE
      with hsorted
    have hlen : sorted.length = (table.filter (rowMatches a f0 cur)).length :=
      (List.mergeSort_perm _ _).length_eq
    set L := lim.toNat with hL
    have hL1 : 1 ≤ L := by omega
    by_cases hmore : (sorted.take (L + 1)).length > L
    · rw [if_pos hmore]
      rw [List.length_take] at hmore
      have hslen : L < sorted.length := by omega
      have htt : (sorted.take (L + 1)).take L = sorted.take L := by
        rw [List.take_take]
        congr 1
        omega
      have hts : (sorted.take (L + 1)).take L ≠ [] := by
        rw [htt]
        intro hnil
        have hlt := congrArg List.length hnil
        rw [List.length_take] at hlt
        simp only [List.length_nil] at hlt
        omega
      obtain ⟨last, hlast⟩ :=
        Option.isSome_iff_exists.mp (List.getLast?_isSome.mpr hts)
      rw [hlast]
      refine ⟨_, rfl, ?_, ?_, ?_⟩
      · simpa using htt
      · intro hcontra
        omega
      · intro _
        exact ⟨last, by simpa using hlast, rfl⟩
    · rw [if_neg hmore]
      rw [List.length_take] at hmore
      have hslen : sorted.length ≤ L := by omega
      refine ⟨_, rfl, ?_, ?_, ?_⟩
      · show sorted.take (L + 1) = sorted.take L
        rw [List.take_of_length_le (by omega),
          List.take_of_length_le (by omega)]
      · intro _
        rfl
      · intro hcontra
        omega

/-- Fixture table for the C9 witness: three trades of one account with
descending-friendly distinct timestamps. -/
def tinyTable : List Trade :=
  [{ baseTrade with tradeID := "w1", timestamp := 1 },
   { baseTrade with tradeID := "w2", timestamp := 2 },
   { baseTrade with tradeID := "w3", timestamp := 3 }]

/-- Fixture filter for the C9 witness: limit 2, no cursor, no filters. -/
def tinyFilter : TradeFilter :=
  ⟨"", "", "", none, none, [], 2⟩

/-- Witness for `listTrades_spec`: the in-range-limit conjunct applied to
the three-row table with limit 2 and no cursor. -/
theorem listTrades_spec_witness :
    ∃ r, ListTrades tinyTable "live" tinyFilter = some r ∧
      r.Trades = (List.mergeSort
          (tinyTable.filter (rowMatches "live" tinyFilter none))
          tradeGE).take (2 : Int).toNat ∧
      ((tinyTable.filter (rowMatches "live" tinyFilter none)).length ≤
        (2 : Int).toNat → r.NextCursor = none) ∧
      ((2 : Int).toNat <
        (tinyTable.filter (rowMatches "live" tinyFilter none)).length →
        ∃ last, r.Trades.getLast? = some last ∧
          r.NextCursor = some (encodeCursor last.timestamp
            (strToBytes last.tradeID))) :=
  (listTrades_spec tinyTable "live" tinyFilter).2.2.2 none rfl
    (by norm_num [tinyFilter]) (by norm_num [tinyFilter])

/-! ## C6: the import path's sort (internal/api/import.go:62-65) -/

theorem listLt_irrefl : ∀ l : List Nat, listLt l l = false
  | [] => rfl
  | a :: as => by
    unfold listLt
    rw [if_neg (lt_irrefl a), if_neg (lt_irrefl a)]
    exact listLt_irrefl as

theorem listLt_trans : ∀ x y z : List Nat,
    listLt x y = true → listLt y z = true → listLt x z = true
  | [], [], _, h1, _ => by cases h1
  | [], _ :: _, [], _, h2 => by cases h2
  | [], _ :: _, _ :: _, _, _ => rfl
  | _ :: _, [], _, h1, _ => by cases h1
  | _ :: _, _ :: _, [], _, h2 => by cases h2
  | a :: as, b :: bs, c :: cs, h1, h2 => by
    unfold listLt at h1 h2 ⊢
    by_cases hab : a < b
    · by_cases hbc : b < c
      · rw [if_pos (by omega : a < c)]
      · rw [if_neg hbc] at h2
        by_cases hcb : c < b
        · rw [if_pos hcb] at h2
          cases h2
        · rw [if_pos (by omega : a < c)]
    · rw [if_neg hab] at h1
      by_cases hba : b < a
      · rw [if_pos hba] at h1
        cases h1
      · rw [if_neg hba] at h1
        have hab2 : a = b := by omega
        subst hab2
        by_cases hac : a < c
        · rw [if_pos hac]
        · rw [if_neg hac] at h2 ⊢
          by_cases hca : c < a
          · rw [if_pos hca] at h2
            cases h2
          · rw [if_neg hca] at h2 ⊢
            exact listLt_trans as bs cs h1 h2

theorem listLt_connex : ∀ x y : List Nat,
    listLt x y = false → listLt y x = false → x = y
  | [], [], _, _ => rfl
  | [], _ :: _, h1, _ => by cases h1
  | _ :: _, [], _, h2 => by cases h2
  | a :: as, b :: bs, h1, h2 => by
    unfold listLt at h1 h2
    by_cases hab : a < b
    · rw [if_pos hab] at h1
      cases h1
    · rw [if_neg hab] at h1
      by_cases hba : b < a
      · rw [if_pos hba] at h2
        cases h2
      · rw [if_neg hba] at h1
        rw [if_neg hba, if_neg hab] at h2
        have hab2 : a = b := by omega
        subst hab2
        rw [listLt_connex as bs h1 h2]

/-- `ingest.TradeEvent` (internal/ingest/event.go:11-28): the wire shape
of one trade event; quantities over `ℚ` as elsewhere, timestamp kept as
its string. -/
structure TradeEvent where
  TradeID : String
  AccountID : String
  Symbol : String
  Side : String
  Quantity : ℚ
  Price : ℚ
  Fee : ℚ
  FeeCurrency : String
  MarketType : String
  Timestamp : String
  Leverage : Option Int
  Margin : Option ℚ
  LiquidationPrice : Option ℚ
  FundingFee : Option ℚ
deriving DecidableEq, Repr

/-- The `less` closure of the import sort (import.go:63-65):
`req.Trades[i].Timestamp < req.Trades[j].Timestamp`, Go's byte-wise
lexicographic comparison of the RFC3339 timestamp strings. -/
def eventLt (a b : TradeEvent) : Bool :=
  listLt (strToBytes a.Timestamp) (strToBytes b.Timestamp)

/-- The contract of Go's `sort.Slice(x, less)`: the data ends up in some
permutation of itself that is sorted with respect to `less` (no element is
`less` than an element before it).  `sort.Slice` is documented NOT to be
stable, so every sorted permutation is a permissible outcome. -/
def sortSliceOutcome {α : Type} (lt : α → α → Bool)
    (input output : List α) : Prop :=
  output.Perm input ∧ output.Pairwise (fun x y => lt y x = false)

/-- Hinnant's civil-from-date day count (days since 1970-01-01). -/
def daysFromCivil (y m d : Int) : Int :=
  let y2 := if m ≤ 2 then y - 1 else y
  let era := (if 0 ≤ y2 then y2 else y2 - 399) / 400
  let yoe := y2 - era * 400
  let mp := (m + 9) % 12
  let doy := (153 * mp + 2) / 5 + d - 1
  let doe := yoe * 365 + yoe / 4 - yoe / 100 + doy
  era * 146097 + doe - 719468

/-- The decimal value of an ASCII digit character. -/
def digitVal (c : Char) : Option Int :=
  if 48 ≤ c.toNat ∧ c.toNat ≤ 57 then some ((c.toNat : Int) - 48) else none

/-- Two ASCII digits as a number. -/
def twoDigits (a b : Char) : Option Int := do
  let x ← digitVal a
  let y ← digitVal b
  pure (10 * x + y)

/-- Modelled from the spec (§4.3 step 2: "RFC3339-parseable timestamp"):
Go's `time.Parse(time.RFC3339, s)` reduced to the Unix instant the
timestamp denotes, for whole-second timestamps with `Z` or `±HH:MM`
offsets.  `time.Parse` is standard-library code, not part of this
repository; this model is used to express "chronological order of event
time". -/
def rfc3339ToUnix (s : String) : Option Int :=
  match s.toList with
  | y1 :: y2 :: y3 :: y4 :: '-' :: mo1 :: mo2 :: '-' :: d1 :: d2 :: 'T' ::
      h1 :: h2 :: ':' :: mi1 :: mi2 :: ':' :: s1 :: s2 :: zone => do
    let yh ← twoDigits y1 y2
    let yl ← twoDigits y3 y4
    let mo ← twoDigits mo1 mo2
    let d ← twoDigits d1 d2
    let h ← twoDigits h1 h2
    let mi ← twoDigits mi1 mi2
    let sec ← twoDigits s1 s2
    let base := daysFromCivil (yh * 100 + yl) mo d * 86400 +
      h * 3600 + mi * 60 + sec
    match zone with
    | ['Z'] => pure base
    | '+' :: o1 :: o2 :: ':' :: o3 :: o4 :: [] => do
      let oh ← twoDigits o1 o2
      let om ← twoDigits o3 o4
      pure (base - (oh * 3600 + om * 60))
    | '-' :: o1 :: o2 :: ':' :: o3 :: o4 :: [] => do
      let oh ← twoDigits o1 o2
      let om ← twoDigits o3 o4
      pure (base + (oh * 3600 + om * 60))
    | _ => none
  | _ => none

/-- A base event for import fixtures. -/
def baseEvent : TradeEvent :=
  { TradeID := "e"
    AccountID := "live"
    Symbol := "BTC-USD"
    Side := "buy"
    Quantity := 1
    Price := 1
    Fee := 0
    FeeCurrency := "USD"
    MarketType := "spot"
    Timestamp := "2024-01-01T00:00:00Z"
    Leverage := none
    Margin := none
    LiquidationPrice := none
    FundingFee := none }

/-- Event whose timestamp `2024-01-01T10:00:00+09:00` denotes the EARLIER
instant (01:00 UTC) yet compares lexicographically LARGER. -/
def evTokyo : TradeEvent :=
  { baseEvent with
    TradeID := "e-tokyo"
    Timestamp := "2024-01-01T10:00:00+09:00" }

/-- Event whose timestamp `2024-01-01T02:00:00Z` denotes the LATER instant
(02:00 UTC) yet compares lexicographically SMALLER. -/
def evUTC : TradeEvent :=
  { baseEvent with
    TradeID := "e-utc"
    Timestamp := "2024-01-01T02:00:00Z" }

/-- Claim C6 counterexample.  For the two-event batch
`[evTokyo, evUTC]` — both valid RFC3339 timestamps — the only outcome
`sort.Slice` may produce under its contract is `[evUTC, evTokyo]`
(first conjunct holds, second fails for the other order), yet `evTokyo`
denotes Unix instant 1704070800 and `evUTC` 1704074400: the batch is NOT
processed in chronological order of event time, because the comparison is
lexicographic on the timestamp strings and the offsets differ. -/
theorem import_sort_counterexample :
    sortSliceOutcome eventLt [evTokyo, evUTC] [evUTC, evTokyo] ∧
    ¬ sortSliceOutcome eventLt [evTokyo, evUTC] [evTokyo, evUTC] ∧
    rfc3339ToUnix evTokyo.Timestamp = some 1704070800 ∧
    rfc3339ToUnix evUTC.Timestamp = some 1704074400 ∧
    (1704070800 : Int) < 1704074400 := by
  refine ⟨⟨List.Perm.swap evTokyo evUTC [], ?_⟩, ?_, ?_, ?_, by norm_num⟩
  · refine List.Pairwise.cons ?_ (List.pairwise_singleton _ _)
    intro y hy
    simp only [List.mem_singleton] at hy
    subst hy
    decide
  · intro h
    have hpw := (List.pairwise_cons.mp h.2).1 evUTC (by simp)
    have : eventLt evUTC evTokyo = true := by decide
    rw [this] at hpw
    cases hpw
  · decide
  · decide

theorem strToBytes_inj (a b : String) (h : strToBytes a = strToBytes b) :
    a = b := by
  apply String.ext
  have hinj : Function.Injective Char.toNat := by
    intro c1 c2 hc
    exact Char.ext (UInt32.ext hc)
  exact List.map_injective_iff.mpr hinj h

theorem eventLe_trans : ∀ a b c : TradeEvent,
    (!(eventLt b a)) = true → (!(eventLt c b)) = true →
    (!(eventLt c a)) = true := by
  intro a b c h1 h2
  simp only [Bool.not_eq_true', eventLt] at h1 h2 ⊢
  by_cases hca : listLt (strToBytes c.Timestamp) (strToBytes a.Timestamp) = true
  · exfalso
    by_cases hab : listLt (strToBytes a.Timestamp) (strToBytes b.Timestamp) = true
    · have := listLt_trans _ _ _ hca hab
      rw [this] at h2
      cases h2
    · have heq : strToBytes a.Timestamp = strToBytes b.Timestamp :=
        listLt_connex _ _ (by simpa using hab) h1
      rw [heq] at hca
      rw [hca] at h2
      cases h2
  · simpa using hca

theorem eventLe_total : ∀ a b : TradeEvent,
    ((!(eventLt b a)) || (!(eventLt a b))) = true := by
  intro a b
  by_cases h1 : eventLt b a = true
  · by_cases h2 : eventLt a b = true
    · exfalso
      have := listLt_trans _ _ _ h1 h2
      rw [listLt_irrefl] at this
      cases this
    · simp [h2]
  · simp [h1]

theorem eq_of_perm_of_sorted_distinct :
    ∀ l₁ l₂ : List TradeEvent, l₁.Perm l₂ →
    l₁.Pairwise (fun x y => eventLt y x = false) →
    l₂.Pairwise (fun x y => eventLt y x = false) →
    l₁.Pairwise (fun x y => x.Timestamp ≠ y.Timestamp) →
    l₁ = l₂
  | [], l₂, hp, _, _, _ => (hp.nil_eq).symm ▸ rfl
  | a :: as, l₂, hp, hs₁, hs₂, hd => by
    rcases l₂ with _ | ⟨b, bs⟩
    · exact absurd (List.Perm.eq_nil hp) (by simp)
    · by_cases hab : a = b
      · subst hab
        have htl := eq_of_perm_of_sorted_distinct as bs (hp.cons_inv)
          (List.pairwise_cons.mp hs₁).2 (List.pairwise_cons.mp hs₂).2
          (List.pairwise_cons.mp hd).2
        rw [htl]
      · exfalso
        have hamem : a ∈ b :: bs := hp.subset (by simp)
        have habs : a ∈ bs := by
          rcases List.mem_cons.mp hamem with h | h
          · exact absurd h hab
          · exact h
        have hbmem : b ∈ a :: as := hp.symm.subset (by simp)
        have hbas : b ∈ as := by
          rcases List.mem_cons.mp hbmem with h | h
          · exact absurd h.symm hab
          · exact h
        have h1 : eventLt a b = false := (List.pairwise_cons.mp hs₂).1 a habs
        have h2 : eventLt b a = false := (List.pairwise_cons.mp hs₁).1 b hbas
        have hts : a.Timestamp = b.Timestamp :=
          strToBytes_inj _ _ (listLt_connex _ _ h1 h2)
        exact (List.pairwise_cons.mp hd).1 b hbas hts

/-- Claim C6, amended.  Before any event is processed, the import path
reorders the batch with `sort.Slice` comparing the RFC3339 timestamp
STRINGS byte-lexicographically: every permissible outcome is a permutation
of the input sorted by that comparison (first conjunct exhibits one), and
when all timestamp strings are distinct the processing order is uniquely
determined.  The sort is not guaranteed stable, and lexicographic order of
mixed-UTC-offset timestamps can disagree with instant order, so events
are not necessarily processed in chronological order of event time (see
the counterexample). -/
theorem import_sort_spec (input : List TradeEvent) :
    sortSliceOutcome eventLt input
      (input.mergeSort (fun a b => !(eventLt b a))) ∧
    (input.Pairwise (fun x y => x.Timestamp ≠ y.Timestamp) →
      ∀ out, sortSliceOutcome eventLt input out →
        out = input.mergeSort (fun a b => !(eventLt b a))) := by
  have hperm := List.mergeSort_perm input (fun a b => !(eventLt b a))
  have hsorted : (input.mergeSort (fun a b => !(eventLt b a))).Pairwise
      (fun x y => eventLt y x = false) := by
    have h := List.sorted_mergeSort eventLe_trans eventLe_total input
    refine h.imp ?_
    intro x y hxy
    simpa using hxy
  refine ⟨⟨hperm, hsorted⟩, ?_⟩
  intro hdist out hout
  refine eq_of_perm_of_sorted_distinct out _ (hout.1.trans hperm.symm)
    hout.2 hsorted ?_
  exact (List.Perm.pairwise_iff (fun h he => h he.symm) hout.1).mpr hdist

/-- Witness for `import_sort_spec`: for the mixed-offset two-event batch
the mergeSort outcome is permissible, and by uniqueness the only
permissible outcome is `[evUTC, evTokyo]`. -/
theorem import_sort_spec_witness :
    sortSliceOutcome eventLt [evTokyo, evUTC]
      (List.mergeSort [evTokyo, evUTC] (fun a b => !(eventLt b a))) ∧
    [evUTC, evTokyo] =
      List.mergeSort [evTokyo, evUTC] (fun a b => !(eventLt b a)) := by
  have h := import_sort_spec [evTokyo, evUTC]
  refine ⟨h.1, ?_⟩
  refine h.2 ?_ [evUTC, evTokyo] ⟨List.Perm.swap evTokyo evUTC [], ?_⟩
  · refine List.Pairwise.cons ?_ (List.pairwise_singleton _ _)
    intro y hy
    simp only [List.mem_singleton] at hy
    subst hy
    decide
  · refine List.Pairwise.cons ?_ (List.pairwise_singleton _ _)
    intro y hy
    simp only [List.mem_singleton] at hy
    subst hy
    decide

/-! ## C8: import endpoint status-code policy -/

/-- `TradeEvent.Validate` (internal/ingest/event.go:31-66), returning the
error message of the first failing check and `none` when valid; the final
`time.Parse(time.RFC3339, ...)` check is modelled by `rfc3339ToUnix`. -/
def TradeEvent.Validate (e : TradeEvent) : Option String :=
  if e.TradeID = "" then some "missing required field: trade_id"
  else if e.AccountID = "" then some "missing required field: account_id"
  else if e.Symbol = "" then some "missing required field: symbol"
  else if ¬ (e.Side = "buy" ∨ e.Side = "sell") then some "invalid side"
  else if e.Quantity ≤ 0 then some "quantity must be positive"
  else if e.Price ≤ 0 then some "price must be positive"
  else if e.FeeCurrency = "" then some "missing required field: fee_currency"
  else if e.Timestamp = "" then some "missing required field: timestamp"
  else if ¬ (e.MarketType = "spot" ∨ e.MarketType = "futures") then
    some "invalid market_type"
  else if (rfc3339ToUnix e.Timestamp).isNone then some "invalid timestamp"
  else none

/-- The per-trade outcome classification of the import loop
(import.go:76-128): `inserted`, `duplicate`, or `error` with a message. -/
inductive Outcome
  | inserted
  | duplicate
  | error (msg : String)
deriving DecidableEq, Repr

def Outcome.isInserted : Outcome → Bool
  | Outcome.inserted => true
  | _ => false

def Outcome.isDuplicate : Outcome → Bool
  | Outcome.duplicate => true
  | _ => false

def Outcome.isError : Outcome → Bool
  | Outcome.error _ => true
  | _ => false

/-- `api.ImportResponse` (import.go:29-35). -/
structure ImportResponse where
  Total : Nat
  Inserted : Nat
  Duplicates : Nat
  Errors : Nat
  Results : List (String × Outcome)
deriving DecidableEq, Repr

/-- The response the import loop accumulates (import.go:67-129): events
processed in the sorted order, outcomes tallied into the counters. -/
def importCounts (trades : List TradeEvent)
    (process : TradeEvent → Outcome) : ImportResponse :=
  let sorted := trades.mergeSort fun a b => !(eventLt b a)
  let rs := sorted.map process
  { Total := trades.length
    Inserted := rs.countP Outcome.isInserted
    Duplicates := rs.countP Outcome.isDuplicate
    Errors := rs.countP Outcome.isError
    Results := (sorted.zip rs).map fun p => (p.1.TradeID, p.2) }

/-- `handleImportTrades` (internal/api/import.go:37-145).  A request that
fails JSON decoding is `none`.  The per-event store interaction — account
setup, sell cost-basis stamping and `InsertTradeAndUpdatePosition`
(lines 79-118) — is abstracted by the `process` oracle; its three
outcomes are tallied exactly as the code tallies them.  The sort is the
lexicographic timestamp sort of C6 (a fixed sorted permutation; the
counters do not depend on which one).  The per-account
`RebuildPositions` calls (lines 133-138) do not affect the response. -/
def handleImportTrades (req : Option (List TradeEvent))
    (process : TradeEvent → Outcome) : Nat × Option ImportResponse :=
  match req with
  | none => (400, none)
  | some trades =>
    if trades.length = 0 then (400, none)
    else if trades.length > 1000 then (400, none)
    else if trades.any (fun e => e.Validate.isSome) then (400, none)
    else
      let resp := importCounts trades process
      (if resp.Errors > 0 ∧ resp.Inserted = 0 then 422 else 200, some resp)

theorem handleImport_gated (trades : List TradeEvent)
    (process : TradeEvent → Outcome)
    (h : trades.length = 0 ∨ trades.length > 1000 ∨
      ∃ e ∈ trades, e.Validate.isSome = true) :
    handleImportTrades (some trades) process = (400, none) := by
  unfold handleImportTrades
  simp only
  rcases h with h | h | h
  · rw [if_pos h]
  · rw [if_neg (by omega), if_pos h]
  · by_cases h0 : trades.length = 0
    · rw [if_pos h0]
    · rw [if_neg h0]
      by_cases h1 : trades.length > 1000
      · rw [if_pos h1]
      · rw [if_neg h1, if_pos (by
          rw [List.any_eq_true]
          obtain ⟨e, he, hv⟩ := h
          exact ⟨e, he, hv⟩)]

theorem handleImport_passed (trades : List TradeEvent)
    (process : TradeEvent → Outcome)
    (h : ¬ (trades.length = 0 ∨ trades.length > 1000 ∨
      ∃ e ∈ trades, e.Validate.isSome = true)) :
    handleImportTrades (some trades) process =
      (if (importCounts trades process).Errors > 0 ∧
          (importCounts trades process).Inserted = 0 then 422 else 200,
        some (importCounts trades process)) := by
  push_neg at h
  obtain ⟨h0, h1, h2⟩ := h
  unfold handleImportTrades
  simp only
  rw [if_neg h0, if_neg (by omega),
    if_neg (by
      rw [Bool.not_eq_true, List.any_eq_false]
      intro e he
      simpa using h2 e he)]

/-- Claim C8.  The import endpoint's status is determined by the
per-trade outcomes: 400 exactly when the request is structurally invalid
(undecodable JSON or empty batch), exceeds 1,000 trades, or some event
fails validation — and then no trade is processed (no response body, and
the result is independent of the processing oracle); otherwise a response
is produced and the status is 422 exactly when `errors > 0 ∧
inserted = 0`, else 200 — in particular a gated-through all-duplicate
batch yields 200. -/
theorem import_status_policy (req : Option (List TradeEvent))
    (process : TradeEvent → Outcome) :
    ((handleImportTrades req process).1 = 400 ↔
      (req = none ∨ ∃ trades, req = some trades ∧
        (trades.length = 0 ∨ trades.length > 1000 ∨
          ∃ e ∈ trades, e.Validate.isSome = true))) ∧
    ((handleImportTrades req process).1 = 400 →
      (handleImportTrades req process).2 = none ∧
      ∀ q, handleImportTrades req q = handleImportTrades req process) ∧
    (∀ trades resp, req = some trades →
      (handleImportTrades req process).2 = some resp →
      ((handleImportTrades req process).1 = 422 ↔
        resp.Errors > 0 ∧ resp.Inserted = 0) ∧
      ((handleImportTrades req process).1 = 200 ↔
        ¬ (resp.Errors > 0 ∧ resp.Inserted = 0))) ∧
    (∀ trades, req = some trades →
      (∀ e ∈ trades, process e = Outcome.duplicate) →
      (handleImportTrades req process).1 = 400 ∨
        (handleImportTrades req process).1 = 200) := by
  rcases req with _ | trades
  · refine ⟨by simp [handleImportTrades], ?_, ?_, ?_⟩
    · intro _
      exact ⟨rfl, fun q => rfl⟩
    · intro trades resp h
      cases h
    · intro trades h
      cases h
  · by_cases hgate : trades.length = 0 ∨ trades.length > 1000 ∨
      ∃ e ∈ trades, e.Validate.isSome = true
    · rw [handleImport_gated trades process hgate]
      refine ⟨?_, ?_, ?_, ?_⟩
      · simp only [true_iff]
        exact Or.inr ⟨trades, rfl, hgate⟩
      · intro _
        refine ⟨rfl, fun q => ?_⟩
        rw [handleImport_gated trades q hgate]
      · intro tr resp htr hresp
        cases hresp
      · intro tr htr hdup
        left
        rfl
    · rw [handleImport_passed trades process hgate]
      have hne : (if (importCounts trades process).Errors > 0 ∧
          (importCounts trades process).Inserted = 0 then 422 else 200 :
          Nat) ≠ 400 := by
        split <;> omega
      refine ⟨?_, ?_, ?_, ?_⟩
      · simp only [hne, false_iff]
        push_neg
        refine ⟨?_, ?_⟩
        · intro h
          cases h
        intro tr htr
        injection htr with htr2
        subst htr2
        push_neg at hgate
        exact hgate
      · intro hc
        exact absurd hc hne
      · intro tr resp htr hresp
        injection htr with htr2
        subst htr2
        simp only [Option.some.injEq] at hresp
        subst hresp
        by_cases hcond : (importCounts trades process).Errors > 0 ∧
            (importCounts trades process).Inserted = 0
        · rw [if_pos hcond]
          constructor
          · exact ⟨fun _ => hcond, fun _ => rfl⟩
          · constructor
            · intro h
              cases h
            · intro h
              exact absurd hcond h
        · rw [if_neg hcond]
          constructor
          · constructor
            · intro h
              cases h
            · intro h
              exact absurd h hcond
          · exact ⟨fun _ => hcond, fun _ => rfl⟩
      · intro tr htr hdup
        injection htr with htr2
        subst htr2
        right
        have herr : (importCounts trades process).Errors = 0 := by
          show ((trades.mergeSort fun a b => !(eventLt b a)).map
            process).countP Outcome.isError = 0
          rw [List.countP_eq_zero]
          intro o ho
          obtain ⟨e, he, rfl⟩ := List.mem_map.mp ho
          have hemem : e ∈ trades :=
            (List.mergeSort_perm trades _).subset he
          rw [hdup e hemem]
          simp [Outcome.isError]
        rw [if_neg (by omega)]

/-- Witness for `import_status_policy`: a valid singleton batch whose
processing reports a duplicate yields status 200 with zero errors. -/
theorem import_status_policy_witness :
    (handleImportTrades (some [baseEvent])
      (fun _ => Outcome.duplicate)).1 = 400 ∨
    (handleImportTrades (some [baseEvent])
      (fun _ => Outcome.duplicate)).1 = 200 :=
  (import_status_policy (some [baseEvent])
    (fun _ => Outcome.duplicate)).2.2.2 [baseEvent] rfl
    (fun _ _ => rfl)

end Ledger
